import Mathlib

/-!
Shallow embedding of the core computations of the vault repository
(Scripts/intersect.py, Scripts/interpolate_ais.py, scripts/sathelpers.py),
with theorems checking the natural-language specification against the code.

Modelling conventions:
* machine floats are modelled as real numbers; where the code can produce
  IEEE special values (np.inf for the half-earth altitude column, NaN from
  0 * inf, sqrt of a negative, acos outside [-1, 1]) we use the four-valued
  type `XF` below with IEEE-754 comparison semantics (every comparison with
  NaN is false);
* int64 quantities (timestamps) are `Int`; float quantities that stay in
  exact decimal/rational range in the relevant code paths (TLE epochs,
  archive timestamps) are `Rat` so that the functions stay executable;
* numpy `searchsorted` (side left) is the lower bound on a sorted list,
  `np.unique(-, return_index=True)` returns the ascending list of distinct
  values together with the index of the first occurrence of each.
-/

open Real

namespace Vault

open scoped Classical

/-- Radius of earth in km (intersect.py line 54). -/
noncomputable def EARTH_RADIUS : ℝ := 6371.0

/-- C / IEEE-754 `atan2 y x`. Only the branches with `x > 0` or `x = 0`
are exercised by the haversine formula (both arguments are square roots). -/
noncomputable def atan2 (y x : ℝ) : ℝ :=
  if 0 < x then arctan (y / x)
  else if x < 0 then (if 0 ≤ y then arctan (y / x) + π else arctan (y / x) - π)
  else if 0 < y then π / 2
  else if y < 0 then -(π / 2)
  else 0

/-- The quantity `a` of `haversine_angle` (intersect.py lines 61-65) exactly as
the code computes it: the coordinate *deltas* are converted from degrees to
radians, but `lat1` and `lat2` are fed to `cos` still in degrees. -/
noncomputable def haversine_a (lon1 lat1 lon2 lat2 : ℝ) : ℝ :=
  let dlon := (lon2 - lon1) / 180.0 * π
  let dlat := (lat2 - lat1) / 180.0 * π
  Real.sin (dlat / 2) ^ 2 + Real.cos lat1 * Real.cos lat2 * Real.sin (dlon / 2) ^ 2

/-- intersect.py `haversine_angle` lines 56-69 (value in the regime where both
square roots are of nonnegative arguments; the NaN-producing regime is modelled
by `haversineXF` below). -/
noncomputable def haversine_angle (lon1 lat1 lon2 lat2 : ℝ) : ℝ :=
  2 * atan2 (Real.sqrt (haversine_a lon1 lat1 lon2 lat2))
      (Real.sqrt (1 - haversine_a lon1 lat1 lon2 lat2))

/-- interpolate_ais.py `haversine_dist` lines 26-39: the same formula as
`haversine_angle` (same missing latitude conversion), scaled by the Earth
radius in km. -/
noncomputable def haversine_dist (lon1 lat1 lon2 lat2 : ℝ) : ℝ :=
  haversine_angle lon1 lat1 lon2 lat2 * 6371.0

/-- The standard haversine central angle as the specification states it:
*all* degree inputs converted to radians, `a = sin²(Δφ/2) + cos φ₁ · cos φ₂ ·
sin²(Δλ/2)`, `c = 2·atan2(√a, √(1−a))`. -/
noncomputable def haversineSpecAngle (lon1 lat1 lon2 lat2 : ℝ) : ℝ :=
  let φ1 := lat1 / 180.0 * π
  let φ2 := lat2 / 180.0 * π
  let dlon := (lon2 - lon1) / 180.0 * π
  let dlat := (lat2 - lat1) / 180.0 * π
  let a := Real.sin (dlat / 2) ^ 2 + Real.cos φ1 * Real.cos φ2 * Real.sin (dlon / 2) ^ 2
  2 * atan2 (Real.sqrt a) (Real.sqrt (1 - a))

/-- IEEE-754-style extended float value: a finite real, `np.inf`, `-np.inf`,
or NaN.  Used for the satellite altitude column, which `compute_hits` fills
with `np.inf` in half-earth mode, and for values downstream of it. -/
inductive XF where
  | fin (x : ℝ)
  | pinf
  | ninf
  | nan

namespace XF

/-- Multiplication by a finite float scalar (IEEE: `0 * ±inf = NaN`). -/
noncomputable def smul (r : ℝ) : XF → XF
  | fin x => fin (r * x)
  | pinf => if 0 < r then pinf else if r < 0 then ninf else nan
  | ninf => if 0 < r then ninf else if r < 0 then pinf else nan
  | nan => nan

/-- IEEE addition (`inf + (-inf) = NaN`, NaN propagates). -/
noncomputable def add : XF → XF → XF
  | nan, _ => nan
  | _, nan => nan
  | fin x, fin y => fin (x + y)
  | fin _, pinf => pinf
  | fin _, ninf => ninf
  | pinf, fin _ => pinf
  | ninf, fin _ => ninf
  | pinf, pinf => pinf
  | ninf, ninf => ninf
  | pinf, ninf => nan
  | ninf, pinf => nan

/-- IEEE negation. -/
noncomputable def neg : XF → XF
  | fin x => fin (-x)
  | pinf => ninf
  | ninf => pinf
  | nan => nan

/-- IEEE comparison `a < r` against a finite float (false whenever `a` is NaN). -/
noncomputable def ltReal (a : XF) (r : ℝ) : Bool :=
  match a with
  | fin x => decide (x < r)
  | pinf => false
  | ninf => true
  | nan => false

/-- `np.isinf`. -/
def isinf : XF → Bool
  | pinf => true
  | ninf => true
  | _ => false

/-- IEEE comparison `a ≤ b` (false whenever either side is NaN). -/
noncomputable def le : XF → XF → Bool
  | nan, _ => false
  | _, nan => false
  | fin x, fin y => decide (x ≤ y)
  | fin _, pinf => true
  | fin _, ninf => false
  | pinf, fin _ => false
  | ninf, fin _ => true
  | pinf, pinf => true
  | ninf, ninf => true
  | ninf, pinf => true
  | pinf, ninf => false

/-- IEEE division of a finite float `r` by `a` (`r / ±inf = ±0`, modelled as 0). -/
noncomputable def divReal (r : ℝ) (a : XF) : XF :=
  match a with
  | fin x => if x = 0 then (if 0 < r then pinf else if r < 0 then ninf else nan) else fin (r / x)
  | pinf => fin 0
  | ninf => fin 0
  | nan => nan

/-- IEEE `acos` (NaN outside `[-1, 1]`, NaN on non-finite input). -/
noncomputable def acos : XF → XF
  | fin x => if -1 ≤ x ∧ x ≤ 1 then fin (Real.arccos x) else nan
  | _ => nan

/-- IEEE `asin` (NaN outside `[-1, 1]`, NaN on non-finite input). -/
noncomputable def asin : XF → XF
  | fin x => if -1 ≤ x ∧ x ≤ 1 then fin (Real.arcsin x) else nan
  | _ => nan

end XF

/-- `haversine_angle` under float semantics: `math.sqrt` of a negative argument
yields NaN under numba and any comparison against NaN is false, so the angle is
modelled as NaN whenever `a ∉ [0, 1]`, and otherwise is the real value. -/
noncomputable def haversineXF (lon1 lat1 lon2 lat2 : ℝ) : XF :=
  let a := haversine_a lon1 lat1 lon2 lat2
  if 0 ≤ a ∧ a ≤ 1 then XF.fin (haversine_angle lon1 lat1 lon2 lat2) else XF.nan

/-- intersect.py line 154: `if sat_interp_alt < EARTH_RADIUS: sat_interp_alt =
EARTH_RADIUS` (a NaN altitude is *not* clamped, since `NaN < x` is false). -/
noncomputable def clampAlt (alt : XF) : XF :=
  if alt.ltReal EARTH_RADIUS then XF.fin EARTH_RADIUS else alt

/-- intersect.py lines 157-164: the FOV half-angle computed from the (already
clamped) interpolated altitude and the module constant `MIN_HORIZON_ELEVATION`
(in degrees).  Note the literal in the `elif` on line 159 is `1e6`, not `1e-6`. -/
noncomputable def sat_fov_max_angle (MIN_HORIZON_ELEVATION : ℝ) (alt : XF) : XF :=
  let min_horizon_angle := MIN_HORIZON_ELEVATION / 180.0 * π
  if alt.isinf then XF.fin (π / 2)
  else if MIN_HORIZON_ELEVATION < 1000000.0 then
    XF.acos (XF.divReal EARTH_RADIUS alt)
  else
    XF.add (XF.fin (π / 2 - min_horizon_angle))
      (XF.neg (XF.asin (XF.smul (Real.sin (min_horizon_angle + π / 2))
        (XF.divReal EARTH_RADIUS alt))))

/-- The kernel's altitude-to-FOV computation as a whole: clamp then branch
(intersect.py lines 154-164). -/
noncomputable def kernel_fov (MIN_HORIZON_ELEVATION : ℝ) (alt : XF) : XF :=
  sat_fov_max_angle MIN_HORIZON_ELEVATION (clampAlt alt)

/-- The FOV half-angle formula exactly as the specification claim states it,
with the elevation `ε` in radians and the threshold `1e-6`. -/
noncomputable def fov_spec (ε r : ℝ) : ℝ :=
  if ε < 1 / 1000000 then Real.arccos (EARTH_RADIUS / max r EARTH_RADIUS)
  else π / 2 - ε - Real.arcsin (EARTH_RADIUS / r * Real.sin (ε + π / 2))

/-- One vessel row fed to `_compute`: `(v_time[i], v_lat[i], v_long[i])`. -/
structure VRow where
  t : ℤ
  lat : ℝ
  lon : ℝ

instance : Inhabited VRow := ⟨⟨0, 0, 0⟩⟩

/-- Mutable loop state of `_compute` (intersect.py lines 111-115 and the cached
interpolation variables): bracket index `sat_idx`, the cached `sat_left` and
`sat_right`, the `dirty` flag, the cached interpolated satellite position, and
the previously seen vessel time `v_time[i-1]` (`none` at `i = 0`). -/
structure KState where
  k : ℕ
  satL : ℤ
  satR : ℤ
  dirty : Bool
  ilat : ℝ
  ilon : ℝ
  ialt : XF
  prev : Option ℤ

/-- The `while vtime >= sat_right` sweep (intersect.py lines 125-133), advancing
the bracket; `none` models the early `return` when `sat_idx == sat_length`.
`sat_idx` only ever moves up by one with the bound checked at each step, so
testing `sat_time.length ≤ k + 1` is the same exit test as the code's equality
test. -/
def advanceSat (sat_time : List ℤ) (vtime : ℤ) (k : ℕ) (satL satR : ℤ) (dirty : Bool) :
    Option (ℕ × ℤ × ℤ × Bool) :=
  if satR ≤ vtime then
    if sat_time.length ≤ k + 1 then none
    else advanceSat sat_time vtime (k + 1) satR (sat_time.getD (k + 1) 0) true
  else some (k, satL, satR, dirty)
termination_by sat_time.length - k
decreasing_by simp_wf; omega

/-- The body of `_compute`'s `for i in range(v_time.shape[0])` loop
(intersect.py lines 117-171), written as structural recursion on the vessel
rows paired with the output buffer cells.  An early `return` leaves the rest of
the output buffer untouched.  The cell write `output[i] = True` only happens
under the final angle test; otherwise the buffer cell is passed through. -/
noncomputable def computeLoop (sat_time : List ℤ) (sat_lat sat_long : List ℝ)
    (sat_alt : List XF) (MIN_HORIZON_ELEVATION : ℝ) :
    List VRow → List Bool → KState → List Bool
  | [], output, _ => output
  | _ :: _, [], _ => []
  | v :: vs, b :: bs, st =>
    if v.t < st.satL then
      b :: computeLoop sat_time sat_lat sat_long sat_alt MIN_HORIZON_ELEVATION vs bs
        { st with prev := some v.t }
    else
      match advanceSat sat_time v.t st.k st.satL st.satR st.dirty with
      | none => b :: bs
      | some (k, satL, satR, dirty0) =>
        let dirty1 := dirty0 || (match st.prev with
          | some p => decide (p ≠ v.t)
          | none => false)
        let time_diff : ℝ := ((satR - satL : ℤ) : ℝ)
        let alpha := ((v.t - satL : ℤ) : ℝ) / time_diff
        let beta := ((satR - v.t : ℤ) : ℝ) / time_diff
        let ilat := if dirty1 then
            beta * sat_lat.getD (k - 1) 0 + alpha * sat_lat.getD k 0
          else st.ilat
        let ilon := if dirty1 then
            beta * sat_long.getD (k - 1) 0 + alpha * sat_long.getD k 0
          else st.ilon
        let ialt0 := if dirty1 then
            XF.add (XF.smul beta (sat_alt.getD (k - 1) (XF.fin 0)))
              (XF.smul alpha (sat_alt.getD k (XF.fin 0)))
          else st.ialt
        let ialt := clampAlt ialt0
        let fov := sat_fov_max_angle MIN_HORIZON_ELEVATION ialt
        let angle := haversineXF ilon ilat v.lon v.lat
        (if XF.le angle fov then true else b) ::
          computeLoop sat_time sat_lat sat_long sat_alt MIN_HORIZON_ELEVATION vs bs
            ⟨k, satL, satR, false, ilat, ilon, ialt, some v.t⟩

/-- Initial loop state (intersect.py lines 111-115). -/
def initState (sat_time : List ℤ) : KState :=
  ⟨1, sat_time.getD 0 0, sat_time.getD 1 0, true, 0, 0, XF.fin 0, none⟩

/-- intersect.py `_compute` (lines 74-171): the whole kernel applied to one
chunk, writing into the given output buffer. -/
noncomputable def _compute (sat_time : List ℤ) (sat_lat sat_long : List ℝ)
    (sat_alt : List XF) (MIN_HORIZON_ELEVATION : ℝ)
    (v : List VRow) (output : List Bool) : List Bool :=
  computeLoop sat_time sat_lat sat_long sat_alt MIN_HORIZON_ELEVATION v output
    (initState sat_time)

/-- The bracket index the sweep maintains: the number of satellite samples
`≤ t`.  For strictly sorted `sat_time` and `t` in range this is the unique `k`
with `sat_time[k-1] ≤ t < sat_time[k]`. -/
def bracketIdx (sat_time : List ℤ) (t : ℤ) : ℕ :=
  sat_time.countP (fun s => decide (s ≤ t))

/-- Linear interpolation of a real-valued satellite column at vessel time `t`
inside bracket `k` (intersect.py lines 142-151). -/
noncomputable def interpR (sat_time : List ℤ) (col : List ℝ) (k : ℕ) (t : ℤ) : ℝ :=
  let satL := sat_time.getD (k - 1) 0
  let satR := sat_time.getD k 0
  ((satR - t : ℤ) : ℝ) / ((satR - satL : ℤ) : ℝ) * col.getD (k - 1) 0 +
    ((t - satL : ℤ) : ℝ) / ((satR - satL : ℤ) : ℝ) * col.getD k 0

/-- Linear interpolation of the altitude column (which may hold `np.inf`) at
vessel time `t` inside bracket `k` (intersect.py line 152). -/
noncomputable def interpXF (sat_time : List ℤ) (col : List XF) (k : ℕ) (t : ℤ) : XF :=
  let satL := sat_time.getD (k - 1) 0
  let satR := sat_time.getD k 0
  let alpha := ((t - satL : ℤ) : ℝ) / ((satR - satL : ℤ) : ℝ)
  let beta := ((satR - t : ℤ) : ℝ) / ((satR - satL : ℤ) : ℝ)
  XF.add (XF.smul beta (col.getD (k - 1) (XF.fin 0))) (XF.smul alpha (col.getD k (XF.fin 0)))

/-- The hit decision for one in-range vessel row, expressed cache-free: the
value `_compute` computes for a row whose time falls in bracket
`bracketIdx sat_time t`. -/
noncomputable def hitPure (sat_time : List ℤ) (sat_lat sat_long : List ℝ)
    (sat_alt : List XF) (MIN_HORIZON_ELEVATION : ℝ) (v : VRow) : Bool :=
  let k := bracketIdx sat_time v.t
  let ialt := clampAlt (interpXF sat_time sat_alt k v.t)
  XF.le (haversineXF (interpR sat_time sat_long k v.t) (interpR sat_time sat_lat k v.t) v.lon v.lat)
    (sat_fov_max_angle MIN_HORIZON_ELEVATION ialt)

/-- Whether `t` lies in the processed range `sat_time[0] ≤ t < sat_time[m-1]`. -/
def inRangeB (sat_time : List ℤ) (t : ℤ) : Bool :=
  decide (sat_time.getD 0 0 ≤ t) && decide (t < sat_time.getD (sat_time.length - 1) 0)

/-- compute_hits lines 260-271: dispatch of the kernel over `workers` equal
chunks of the vessel series plus a serial tail chunk, each chunk writing into
its slice of the given mask buffer. -/
noncomputable def dispatchMask (sat_time : List ℤ) (sat_lat sat_long : List ℝ)
    (sat_alt : List XF) (MIN_HORIZON_ELEVATION : ℝ)
    (v : List VRow) (workers : ℕ) (hit_mask : List Bool) : List Bool :=
  if 1 < workers then
    let chunksize := v.length / workers
    let totalsize := chunksize * workers
    (((List.range workers).map fun w =>
      _compute sat_time sat_lat sat_long sat_alt MIN_HORIZON_ELEVATION
        ((v.drop (w * chunksize)).take chunksize)
        ((hit_mask.drop (w * chunksize)).take chunksize)).flatten)
    ++ (if totalsize < v.length then
          _compute sat_time sat_lat sat_long sat_alt MIN_HORIZON_ELEVATION
            (v.drop totalsize) (hit_mask.drop totalsize)
        else [])
  else _compute sat_time sat_lat sat_long sat_alt MIN_HORIZON_ELEVATION v hit_mask

/-- compute_hits lines 250-271: the boolean mask is allocated all-false
(`np.zeros(numvessels, dtype=bool)`) and then filled by the dispatched chunks. -/
noncomputable def compute_hits_mask (sat_time : List ℤ) (sat_lat sat_long : List ℝ)
    (sat_alt : List XF) (MIN_HORIZON_ELEVATION : ℝ)
    (v : List VRow) (workers : ℕ) : List Bool :=
  dispatchMask sat_time sat_lat sat_long sat_alt MIN_HORIZON_ELEVATION v workers
    (List.replicate v.length false)

/-- One AIS row: `(mmsi_id, date_time in seconds, lat, lon)`
(interpolate_ais.py schema). -/
structure AISRow where
  mmsi : ℤ
  time : ℤ
  lat : ℝ
  lon : ℝ

instance : Inhabited AISRow := ⟨⟨0, 0, 0, 0⟩⟩

/-- Python `int(x)` on a float: truncation toward zero. -/
noncomputable def pyint (x : ℝ) : ℤ :=
  if 0 ≤ x then ⌊x⌋ else ⌈x⌉

/-- interpolate_ais.py lines 67-88: the rows inserted between one row and the
next row of the frame.  Nothing is inserted when the `mmsi_id` changes, when
the time gap is within `maxdt`, or when the haversine distance exceeds
`maxdist`; otherwise `numsegments = ceil(Δt / maxdt)` and `numsegments - 1`
rows are inserted, with linearly interpolated `lat`/`lon` and the time
`int(dt*j + times[i])` truncated to an integer second. -/
noncomputable def expandPair (maxdist : ℝ) (maxdt : ℤ) (row next : AISRow) : List AISRow :=
  if row.mmsi ≠ next.mmsi then []
  else if maxdt < next.time - row.time then
    if maxdist < haversine_dist row.lon row.lat next.lon next.lat then []
    else
      let numsegments : ℤ := ⌈((next.time - row.time : ℤ) : ℝ) / ((maxdt : ℤ) : ℝ)⌉
      let dlat := (next.lat - row.lat) / ((numsegments : ℤ) : ℝ)
      let dlon := (next.lon - row.lon) / ((numsegments : ℤ) : ℝ)
      let dt : ℝ := ((next.time - row.time : ℤ) : ℝ) / ((numsegments : ℤ) : ℝ)
      (List.range (numsegments.toNat - 1)).map fun (j0 : ℕ) =>
        { mmsi := row.mmsi,
          time := pyint (dt * ((j0 : ℝ) + 1) + (row.time : ℝ)),
          lat := dlat * ((j0 : ℝ) + 1) + row.lat,
          lon := dlon * ((j0 : ℝ) + 1) + row.lon }
  else []

/-- interpolate_ais.py `interpolate_track` lines 41-91: every input row is
emitted, and between each row and its successor the rows of `expandPair` are
inserted. -/
noncomputable def interpolate_track (maxdist : ℝ) (maxdt : ℤ) : List AISRow → List AISRow
  | [] => []
  | [r] => [r]
  | r :: next :: rest =>
    r :: (expandPair maxdist maxdt r next ++ interpolate_track maxdist maxdt (next :: rest))

/-- The caller-supplied sort order of the AIS frame: by `(mmsi_id, date_time)`. -/
def sortedByMmsiTime (rows : List AISRow) : Prop :=
  List.Chain' (fun a b => a.mmsi < b.mmsi ∨ (a.mmsi = b.mmsi ∧ a.time ≤ b.time)) rows

/-- sathelpers.py line 68: `max_extrap = timedelta(days=7).total_seconds()`. -/
def max_extrap : ℚ := 604800

/-- sathelpers.py lines 70-71: `int(60.0 * np.floor(epoch_s / 60.0))`. -/
def floor_to_nearest_min (epoch_s : ℚ) : ℤ :=
  60 * ⌊epoch_s / 60⌋

/-- One planned validity window `(start, end)` for the TLE at index `idx`
of the epoch vector. -/
structure TLEWindow where
  start : ℤ
  stop : ℤ
  idx : ℕ
deriving DecidableEq

/-- sathelpers.py lines 118-128: the raw (pre-floor) window start for the TLE
at index `i`: the first epoch for `i = 0`, otherwise
`max(halfway_to_last, t[i] - max_extrap)`. -/
def windowStartRaw (times : List ℚ) (i : ℕ) : ℚ :=
  if i = 0 then times.getD 0 0
  else max ((times.getD (i - 1) 0 + times.getD i 0) / 2) (times.getD i 0 - max_extrap)

/-- sathelpers.py lines 130-140: the raw (pre-floor) window end for the TLE at
index `i`: the last epoch for `i = n-1`, otherwise
`min(halfway_to_next, t[i] + max_extrap)`. -/
def windowEndRaw (times : List ℚ) (i : ℕ) : ℚ :=
  if i = times.length - 1 then times.getD i 0
  else min ((times.getD i 0 + times.getD (i + 1) 0) / 2) (times.getD i 0 + max_extrap)

/-- sathelpers.py `TLEManager.get_compute_windows` lines 97-152, as a function
of the sorted epoch vector: raw endpoints as above, both floored to the minute,
windows of length ≤ 60 s dropped (with a logged warning). -/
def get_compute_windows (times : List ℚ) : List TLEWindow :=
  (List.range times.length).filterMap fun i =>
    let start := floor_to_nearest_min (windowStartRaw times i)
    let stop := floor_to_nearest_min (windowEndRaw times i)
    if stop - start ≤ 60 then none else some ⟨start, stop, i⟩

/-- One column of the stored 4×N track matrix:
`(time_s, lat_deg, lon_deg, radius)`. -/
structure TrackCol where
  time : ℚ
  lat : ℚ
  lon : ℚ
  alt : ℚ
deriving DecidableEq

instance : Inhabited TrackCol := ⟨⟨0, 0, 0, 0⟩⟩

/-- `np.searchsorted(ts, x)` with the default left side on a sorted list:
the lower bound, i.e. the number of leading elements `< x`. -/
def lower_bound (ts : List ℚ) (x : ℚ) : ℕ :=
  (ts.takeWhile fun s => decide (s < x)).length

/-- `np.unique(vals, return_index=True)`: for each distinct value in ascending
order, the index of its first occurrence in `vals`. -/
def np_unique_first_indices (vals : List ℚ) : List ℕ :=
  ((vals.dedup).insertionSort (· ≤ ·)).map fun q => vals.indexOf q

/-- sathelpers.py `SatelliteDataStore.get_precomputed_tracks` lines 286-314:
binary-search the time row for both endpoints, slice the columns, then select
the `np.unique` first-occurrence indices of the sliced time row. -/
def get_precomputed_tracks (cols : List TrackCol) (start stop : ℚ) : List TrackCol :=
  let times := cols.map (·.time)
  let start_index := lower_bound times start
  let end_index := lower_bound times stop
  let dataz := (cols.drop start_index).take (end_index - start_index)
  (np_unique_first_indices (dataz.map (·.time))).map fun i => dataz.getD i default

/-- Reference behaviour for the dedup step as the spec words it: drop columns
whose timestamp duplicates an earlier one, keeping the first occurrence and
preserving order.  `seen` accumulates the timestamps already emitted. -/
def dedupAux (seen : List ℚ) : List TrackCol → List TrackCol
  | [] => []
  | c :: rest =>
    if c.time ∈ seen then dedupAux seen rest
    else c :: dedupAux (c.time :: seen) rest

/-- Keep-first-occurrence dedup by timestamp, preserving order. -/
def dedupKeepFirstByTime (l : List TrackCol) : List TrackCol :=
  dedupAux [] l

/-- The first column of `l` carrying timestamp `v`. -/
def firstWithTime (v : ℚ) (l : List TrackCol) : TrackCol :=
  (l.find? fun c => decide (c.time = v)).getD default

/-- State of one satellite's archive entry on disk. -/
inductive FileState where
  | absent
  | empty
  | stored (data : List (List ℚ))
deriving DecidableEq

/-- The archive: one `FileState` per norad id. -/
def Store : Type := ℕ → FileState

/-- Point update of the archive. -/
def putStore (s : Store) (id : ℕ) (st : FileState) : Store :=
  fun j => if j = id then st else s j

/-- sathelpers.py `put_precomputed_tracks` lines 272-284 together with
`_open_file_for_id` lines 249-258, as the sequence of disk effects it performs,
cut off after `steps` completed steps (modelling a failure at that point):
step 1 - `open_file(path, "w")`: pytables mode `"w"` creates the file anew,
         truncating any existing file, so the entry becomes an empty file;
step 2 - `CArray(f.root, "s<id>", ...)`: the array node exists, zero-filled;
step 3 - `new_array[:] = data`: the payload is written.
There is no temporary file and no rename anywhere in this code path. -/
def put_precomputed_tracks_upto (steps : ℕ) (s : Store) (id : ℕ)
    (data : List (List ℚ)) : Store :=
  if steps = 0 then s
  else if steps = 1 then putStore s id .empty
  else if steps = 2 then putStore s id (.stored (data.map fun r => r.map fun _ => 0))
  else putStore s id (.stored data)

/-! ### Window planner (C5) -/

theorem getD_mono_of_sorted {times : List ℚ} (hs : List.Chain' (· ≤ ·) times)
    {i j : ℕ} (hij : i ≤ j) (hj : j < times.length) :
    times.getD i 0 ≤ times.getD j 0 := by
  rcases eq_or_lt_of_le hij with rfl | hlt
  · exact le_refl _
  · have hp : times.Pairwise (· ≤ ·) := List.chain'_iff_pairwise.mp hs
    have hi : i < times.length := lt_trans hlt hj
    rw [List.getD_eq_getElem _ _ hi, List.getD_eq_getElem _ _ hj]
    exact List.pairwise_iff_getElem.mp hp i j hi hj hlt

theorem floor_min_le (q : ℚ) : (floor_to_nearest_min q : ℚ) ≤ q := by
  have h1 : ((⌊q / 60⌋ : ℤ) : ℚ) ≤ q / 60 := Int.floor_le _
  have h2 : (60 : ℚ) * (q / 60) = q := by ring
  unfold floor_to_nearest_min
  push_cast
  nlinarith

theorem lt_floor_min_add (q : ℚ) : q < (floor_to_nearest_min q : ℚ) + 60 := by
  have h1 : q / 60 - 1 < ((⌊q / 60⌋ : ℤ) : ℚ) := Int.sub_one_lt_floor _
  have h2 : (60 : ℚ) * (q / 60) = q := by ring
  unfold floor_to_nearest_min
  push_cast
  nlinarith

theorem floor_min_mono {q r : ℚ} (h : q ≤ r) :
    floor_to_nearest_min q ≤ floor_to_nearest_min r := by
  unfold floor_to_nearest_min
  have hd : q / 60 ≤ r / 60 := by gcongr
  exact Int.mul_le_mul_of_nonneg_left (Int.floor_mono hd) (by norm_num)

theorem floor_min_emod (q : ℚ) : floor_to_nearest_min q % 60 = 0 := by
  unfold floor_to_nearest_min
  exact Int.mul_emod_right 60 _

theorem windowStartRaw_le {times : List ℚ} (hs : List.Chain' (· ≤ ·) times)
    {i : ℕ} (hi : i < times.length) :
    windowStartRaw times i ≤ times.getD i 0 := by
  unfold windowStartRaw
  split
  · next h => subst h; exact le_refl _
  · next h =>
    apply max_le
    · have := getD_mono_of_sorted hs (Nat.sub_le i 1) hi
      linarith
    · have : (0 : ℚ) ≤ max_extrap := by norm_num [max_extrap]
      linarith

theorem le_windowEndRaw {times : List ℚ} (hs : List.Chain' (· ≤ ·) times)
    {i : ℕ} (hi : i < times.length) :
    times.getD i 0 ≤ windowEndRaw times i := by
  unfold windowEndRaw
  split
  · exact le_refl _
  · next h =>
    apply le_min
    · have hsucc : i + 1 < times.length := by omega
      have := getD_mono_of_sorted hs (Nat.le_succ i) hsucc
      linarith
    · have : (0 : ℚ) ≤ max_extrap := by norm_num [max_extrap]
      linarith

theorem windowEndRaw_le_halfway {times : List ℚ} {i : ℕ} (hi : i < times.length - 1) :
    windowEndRaw times i ≤ (times.getD i 0 + times.getD (i + 1) 0) / 2 := by
  unfold windowEndRaw
  rw [if_neg (by omega)]
  exact min_le_left _ _

theorem halfway_le_windowStartRaw {times : List ℚ} {j : ℕ} (hj : 1 ≤ j) :
    (times.getD (j - 1) 0 + times.getD j 0) / 2 ≤ windowStartRaw times j := by
  unfold windowStartRaw
  rw [if_neg (by omega)]
  exact le_max_left _ _

theorem mem_get_compute_windows {times : List ℚ} {w : TLEWindow} :
    w ∈ get_compute_windows times ↔ ∃ i, i < times.length ∧
      ¬ (floor_to_nearest_min (windowEndRaw times i) -
          floor_to_nearest_min (windowStartRaw times i) ≤ 60) ∧
      w = ⟨floor_to_nearest_min (windowStartRaw times i),
           floor_to_nearest_min (windowEndRaw times i), i⟩ := by
  constructor
  · intro hmem
    obtain ⟨i, hi, hf⟩ := List.mem_filterMap.mp hmem
    refine ⟨i, List.mem_range.mp hi, ?_, ?_⟩
    · intro hc
      rw [if_pos hc] at hf
      exact Option.noConfusion hf
    · by_cases hc : floor_to_nearest_min (windowEndRaw times i) -
          floor_to_nearest_min (windowStartRaw times i) ≤ 60
      · rw [if_pos hc] at hf
        exact absurd hf (by simp)
      · rw [if_neg hc] at hf
        exact (Option.some_inj.mp hf).symm
  · rintro ⟨i, hi, hc, rfl⟩
    exact List.mem_filterMap.mpr ⟨i, List.mem_range.mpr hi, by rw [if_neg hc]⟩

/-- The emitted window list for the concrete epoch vector `[0, 330]` (seconds):
window 0 is `[0, 120)` and window 1 is `[120, 300)`. -/
theorem windows_of_two_epochs :
    get_compute_windows [(0 : ℚ), 330] = [⟨0, 120, 0⟩, ⟨120, 300, 1⟩] := by
  have h165 : ⌊(165 : ℚ) / 60⌋ = 2 := by
    rw [Int.floor_eq_iff]
    norm_num
  have h330 : ⌊(330 : ℚ) / 60⌋ = 5 := by
    rw [Int.floor_eq_iff]
    norm_num
  have h0 : ⌊(0 : ℚ) / 60⌋ = 0 := by norm_num
  have hr : List.range 2 = [0, 1] := rfl
  simp only [get_compute_windows, List.length_cons, List.length_nil, hr,
    List.filterMap_cons, List.filterMap_nil, windowStartRaw, windowEndRaw,
    floor_to_nearest_min, max_extrap]
  norm_num [h165, h330, h0, min_def, max_def]

/-- C5 as stated is false: for the sorted epoch vector `[0, 330]` the planner
emits the window `[120, 300)` for the epoch `330`, and `330 > 300`: flooring
the end to the whole minute can push the window end below its own TLE epoch. -/
theorem C5_counterexample :
    List.Chain' (· ≤ ·) [(0 : ℚ), 330] ∧
    ¬ (∀ w ∈ get_compute_windows [(0 : ℚ), 330],
        (w.start : ℚ) ≤ ([(0 : ℚ), 330]).getD w.idx 0 ∧
        ([(0 : ℚ), 330]).getD w.idx 0 ≤ (w.stop : ℚ)) := by
  constructor
  · simp
  · intro h
    have hw := (h ⟨120, 300, 1⟩ (by rw [windows_of_two_epochs]; simp)).2
    norm_num at hw

/-- C5, amended: for every sorted epoch vector the emitted windows are ordered
and pairwise non-overlapping, minute-aligned, of length > 60 s, and each
window's own epoch `t[i]` satisfies `start ≤ t[i] < end + 60` (the epoch can
exceed the floored end by less than one minute, but never precedes the start). -/
theorem C5_window_planner (times : List ℚ) (hs : List.Chain' (· ≤ ·) times) :
    (get_compute_windows times).Pairwise
      (fun a b => a.stop ≤ b.start ∧ a.start < b.start) ∧
    ∀ w ∈ get_compute_windows times,
      w.start % 60 = 0 ∧ w.stop % 60 = 0 ∧ 60 < w.stop - w.start ∧
      (w.start : ℚ) ≤ times.getD w.idx 0 ∧
      times.getD w.idx 0 < (w.stop : ℚ) + 60 := by
  constructor
  · unfold get_compute_windows
    rw [List.pairwise_filterMap, List.pairwise_iff_getElem]
    intro i j hi hj hij
    simp only [List.length_range] at hi hj
    simp only [List.getElem_range]
    intro c hc d hd
    simp only [Option.mem_def] at hc hd
    have hguardc : ¬ (floor_to_nearest_min (windowEndRaw times i) -
        floor_to_nearest_min (windowStartRaw times i) ≤ 60) := by
      intro hle
      rw [if_pos hle] at hc
      exact Option.noConfusion hc
    have hguardd : ¬ (floor_to_nearest_min (windowEndRaw times j) -
        floor_to_nearest_min (windowStartRaw times j) ≤ 60) := by
      intro hle
      rw [if_pos hle] at hd
      exact Option.noConfusion hd
    rw [if_neg hguardc] at hc
    rw [if_neg hguardd] at hd
    obtain rfl := Option.some_inj.mp hc
    obtain rfl := Option.some_inj.mp hd
    have hij1 : i ≤ j - 1 := by omega
    have hj1 : j - 1 < times.length := by omega
    have hstep1 : windowEndRaw times i ≤ (times.getD i 0 + times.getD (i + 1) 0) / 2 :=
      windowEndRaw_le_halfway (by omega)
    have hmono1 : times.getD i 0 ≤ times.getD (j - 1) 0 :=
      getD_mono_of_sorted hs hij1 hj1
    have hmono2 : times.getD (i + 1) 0 ≤ times.getD j 0 :=
      getD_mono_of_sorted hs (by omega) hj
    have hstep2 : (times.getD i 0 + times.getD (i + 1) 0) / 2 ≤
        (times.getD (j - 1) 0 + times.getD j 0) / 2 := by linarith
    have hstep3 : (times.getD (j - 1) 0 + times.getD j 0) / 2 ≤ windowStartRaw times j :=
      halfway_le_windowStartRaw (by omega)
    have hstop : floor_to_nearest_min (windowEndRaw times i) ≤
        floor_to_nearest_min (windowStartRaw times j) :=
      floor_min_mono (le_trans hstep1 (le_trans hstep2 hstep3))
    dsimp only
    exact ⟨hstop, by omega⟩
  · intro w hw
    obtain ⟨i, hi, hguard, rfl⟩ := mem_get_compute_windows.mp hw
    dsimp only
    refine ⟨floor_min_emod _, floor_min_emod _, by omega, ?_, ?_⟩
    · exact le_trans (floor_min_le _) (windowStartRaw_le hs hi)
    · exact lt_of_le_of_lt (le_windowEndRaw hs hi) (lt_floor_min_add _)

/-- Witness for `C5_window_planner` at the concrete sorted epoch vector
`[0, 330]`. -/
theorem C5_window_planner_witness :
    List.Chain' (· ≤ ·) [(0 : ℚ), 330] ∧
    ((get_compute_windows [(0 : ℚ), 330]).Pairwise
      (fun a b => a.stop ≤ b.start ∧ a.start < b.start) ∧
    ∀ w ∈ get_compute_windows [(0 : ℚ), 330],
      w.start % 60 = 0 ∧ w.stop % 60 = 0 ∧ 60 < w.stop - w.start ∧
      (w.start : ℚ) ≤ ([(0 : ℚ), 330]).getD w.idx 0 ∧
      ([(0 : ℚ), 330]).getD w.idx 0 < (w.stop : ℚ) + 60) :=
  ⟨by simp, C5_window_planner [(0 : ℚ), 330] (by simp)⟩

/-! ### Track archive put (C9) -/

/-- C9 as stated is false: `put_precomputed_tracks` opens the target file in
truncating `"w"` mode in place, so a failure right after the open (1 completed
step) leaves an empty file where the prior entry `[[5]]` used to be; there is
no temporary file and no rename. -/
theorem C9_counterexample :
    ¬ (∀ k, k < 3 →
        (put_precomputed_tracks_upto k
            (putStore (fun _ => FileState.absent) 7 (FileState.stored [[5]])) 7 [[9]]) 7 =
          (putStore (fun _ => FileState.absent) 7 (FileState.stored [[5]])) 7) := by
  intro h
  have h1 := h 1 (by norm_num)
  simp [put_precomputed_tracks_upto, putStore] at h1

/-- C9, amended: the put is an in-place overwrite, not an atomic replacement.
Opening the entry in mode `"w"` truncates it immediately, so a failure after
the open leaves an empty file, a failure after creating the array node leaves
a zero-filled matrix, and only a completed put leaves the new matrix; a failure
before the open, and entries of every other norad id, are untouched. -/
theorem C9_put_in_place (s : Store) (id : ℕ) (data : List (List ℚ)) :
    (put_precomputed_tracks_upto 3 s id data) id = FileState.stored data ∧
    (put_precomputed_tracks_upto 1 s id data) id = FileState.empty ∧
    (put_precomputed_tracks_upto 2 s id data) id =
      FileState.stored (data.map fun r => r.map fun _ => 0) ∧
    (put_precomputed_tracks_upto 0 s id data) id = s id ∧
    ∀ j, j ≠ id → ∀ k, (put_precomputed_tracks_upto k s id data) j = s j := by
  refine ⟨?_, ?_, ?_, ?_, ?_⟩
  · simp [put_precomputed_tracks_upto, putStore]
  · simp [put_precomputed_tracks_upto, putStore]
  · simp [put_precomputed_tracks_upto, putStore]
  · simp [put_precomputed_tracks_upto]
  · intro j hj k
    unfold put_precomputed_tracks_upto putStore
    split_ifs <;> simp [hj]

/-- Witness for `C9_put_in_place` at a concrete store, id, and matrix. -/
theorem C9_put_in_place_witness :
    (put_precomputed_tracks_upto 3 (fun _ => FileState.absent) 7 [[9]]) 7 =
      FileState.stored [[9]] ∧
    (put_precomputed_tracks_upto 1 (fun _ => FileState.absent) 7 [[9]]) 6 =
      FileState.absent :=
  ⟨(C9_put_in_place (fun _ => FileState.absent) 7 [[9]]).1,
   (C9_put_in_place (fun _ => FileState.absent) 7 [[9]]).2.2.2.2 6 (by norm_num) 1⟩

/-! ### Track archive read (C8) -/

theorem getD_indexOf_map_time (l : List TrackCol) (v : ℚ)
    (hv : v ∈ l.map (·.time)) :
    l.getD (List.indexOf v (l.map (·.time))) default = firstWithTime v l := by
  induction l with
  | nil => simp at hv
  | cons c rest ih =>
    simp only [List.map_cons] at hv ⊢
    by_cases h : c.time = v
    · have h0 : List.indexOf v (c.time :: rest.map (·.time)) = 0 := by
        rw [List.indexOf_cons]
        simp [h]
      rw [h0]
      simp only [List.getD_cons_zero, firstWithTime]
      rw [List.find?_cons_of_pos _ (by simp [h])]
      rfl
    · have hne : (c.time == v) = false := by
        simp only [beq_eq_false_iff_ne, ne_eq]
        exact h
      have hstep : List.indexOf v (c.time :: rest.map (·.time)) =
          List.indexOf v (rest.map (·.time)) + 1 := by
        rw [List.indexOf_cons, hne]
        rfl
      have hv2 : v ∈ rest.map (·.time) := by
        rcases List.mem_cons.mp hv with h1 | h1
        · exact absurd h1.symm h
        · exact h1
      rw [hstep]
      simp only [List.getD_cons_succ]
      rw [ih hv2]
      simp only [firstWithTime]
      rw [List.find?_cons_of_neg _ (by simp [h])]

theorem firstWithTime_filter_ne (l : List TrackCol) (v t : ℚ) (hvt : v ≠ t) :
    firstWithTime v (l.filter fun d => decide (d.time ≠ t)) = firstWithTime v l := by
  induction l with
  | nil => rfl
  | cons c rest ih =>
    by_cases hc : c.time = t
    · have hfc : (c :: rest).filter (fun d => decide (d.time ≠ t)) =
          rest.filter (fun d => decide (d.time ≠ t)) := by
        simp [List.filter_cons, hc]
      rw [hfc, ih]
      have hcv : c.time ≠ v := by rw [hc]; exact fun he => hvt he.symm
      simp only [firstWithTime]
      rw [List.find?_cons_of_neg _ (by simp [hcv])]
    · have hfc : (c :: rest).filter (fun d => decide (d.time ≠ t)) =
          c :: rest.filter (fun d => decide (d.time ≠ t)) := by
        simp [List.filter_cons, hc]
      rw [hfc]
      by_cases hcv : c.time = v
      · simp only [firstWithTime]
        rw [List.find?_cons_of_pos _ (by simp [hcv]),
          List.find?_cons_of_pos _ (by simp [hcv])]
      · simp only [firstWithTime] at ih ⊢
        rw [List.find?_cons_of_neg _ (by simp [hcv]),
          List.find?_cons_of_neg _ (by simp [hcv])]
        exact ih

theorem dedupAux_congr_seen (l : List TrackCol) (seen1 seen2 : List ℚ)
    (h : ∀ x, x ∈ seen1 ↔ x ∈ seen2) :
    dedupAux seen1 l = dedupAux seen2 l := by
  induction l generalizing seen1 seen2 with
  | nil => rfl
  | cons c rest ih =>
    simp only [dedupAux]
    by_cases hc : c.time ∈ seen1
    · rw [if_pos hc, if_pos ((h c.time).mp hc)]
      exact ih seen1 seen2 h
    · rw [if_neg hc, if_neg (fun hx => hc ((h c.time).mpr hx))]
      refine congrArg _ (ih _ _ ?_)
      intro x
      simp only [List.mem_cons]
      exact or_congr Iff.rfl (h x)

theorem dedupAux_cons_seen (l : List TrackCol) (t : ℚ) (seen : List ℚ) :
    dedupAux (t :: seen) l = dedupAux seen (l.filter fun d => decide (d.time ≠ t)) := by
  induction l generalizing seen with
  | nil => rfl
  | cons c rest ih =>
    by_cases hc : c.time = t
    · have hfc : (c :: rest).filter (fun d => decide (d.time ≠ t)) =
          rest.filter (fun d => decide (d.time ≠ t)) := by
        simp [List.filter_cons, hc]
      rw [hfc]
      have hmem : c.time ∈ t :: seen := by simp [hc]
      simp only [dedupAux, if_pos hmem]
      exact ih seen
    · have hfc : (c :: rest).filter (fun d => decide (d.time ≠ t)) =
          c :: rest.filter (fun d => decide (d.time ≠ t)) := by
        simp [List.filter_cons, hc]
      rw [hfc]
      simp only [dedupAux]
      by_cases hmem : c.time ∈ seen
      · rw [if_pos (by simp [hmem]), if_pos hmem]
        exact ih seen
      · rw [if_neg (by simp [hc, hmem]), if_neg hmem]
        refine congrArg _ ?_
        rw [← ih (c.time :: seen)]
        exact dedupAux_congr_seen _ _ _ (by intro x; simp; tauto)

theorem sortedDistinct_cons (v : ℚ) (vs : List ℚ)
    (hs : List.Pairwise (· ≤ ·) (v :: vs)) :
    ((v :: vs).dedup.insertionSort (· ≤ ·)) =
      v :: ((vs.filter fun x => decide (x ≠ v)).dedup.insertionSort (· ≤ ·)) := by
  have hvle : ∀ x ∈ vs, v ≤ x := fun x hx => List.rel_of_pairwise_cons hs hx
  apply List.eq_of_perm_of_sorted (r := (· ≤ ·))
  · have p1 : ((v :: vs).dedup.insertionSort (· ≤ ·)).Perm ((v :: vs).dedup) :=
      List.perm_insertionSort _ _
    have p2 : ((vs.filter fun x => decide (x ≠ v)).dedup.insertionSort (· ≤ ·)).Perm
        ((vs.filter fun x => decide (x ≠ v)).dedup) := List.perm_insertionSort _ _
    refine p1.trans (List.Perm.trans ?_ (p2.symm.cons v))
    have hnodup1 : ((v :: vs).dedup).Nodup := List.nodup_dedup _
    have hnodup2 : (v :: (vs.filter fun x => decide (x ≠ v)).dedup).Nodup := by
      refine List.Pairwise.cons ?_ (List.nodup_dedup _)
      intro x hx
      have := List.of_mem_filter (List.mem_dedup.mp hx)
      simp only [decide_eq_true_eq] at this
      exact fun he => this he.symm
    rw [List.perm_ext_iff_of_nodup hnodup1 hnodup2]
    intro x
    simp only [List.mem_dedup, List.mem_cons, List.mem_filter, decide_eq_true_eq]
    by_cases hxv : x = v
    · simp [hxv]
    · simp [hxv]
  · exact List.sorted_insertionSort _ _
  · rw [List.sorted_cons]
    constructor
    · intro b hb
      have hb2 := (List.perm_insertionSort (· ≤ ·) _).mem_iff.mp hb
      have := List.of_mem_filter (List.mem_dedup.mp hb2)
      exact hvle b (List.mem_filter.mp (List.mem_dedup.mp hb2)).1
    · exact List.sorted_insertionSort _ _

theorem np_dedup_eq_aux (n : ℕ) : ∀ (l : List TrackCol), l.length ≤ n →
    List.Pairwise (· ≤ ·) (l.map (·.time)) →
    (np_unique_first_indices (l.map (·.time))).map (fun i => l.getD i default) =
      dedupKeepFirstByTime l := by
  induction n with
  | zero =>
    intro l hl _
    match l with
    | [] => rfl
    | c :: rest => simp at hl
  | succ n ih =>
    intro l hl hs
    match l with
    | [] => rfl
    | c :: rest =>
      have hs2 : List.Pairwise (· ≤ ·) (c.time :: rest.map (·.time)) := by
        simpa using hs
      have hmapfilter : ((rest.map (·.time)).filter fun x => decide (x ≠ c.time)) =
          (rest.filter fun d => decide (d.time ≠ c.time)).map (·.time) := by
        rw [List.filter_map]
        rfl
      have hcons := sortedDistinct_cons c.time (rest.map (·.time)) hs2
      unfold np_unique_first_indices
      rw [List.map_cons]
      rw [hcons, List.map_cons, List.map_cons]
      have hhead : List.indexOf c.time (c.time :: rest.map (·.time)) = 0 := by
        rw [List.indexOf_cons]
        simp
      rw [hhead]
      simp only [List.getD_cons_zero]
      have htail : ∀ v ∈ ((rest.map (·.time)).filter fun x =>
            decide (x ≠ c.time)).dedup.insertionSort (· ≤ ·),
          (c :: rest).getD (List.indexOf v (c.time :: rest.map (·.time))) default =
            (rest.filter fun d => decide (d.time ≠ c.time)).getD
              (List.indexOf v ((rest.filter fun d => decide (d.time ≠ c.time)).map (·.time)))
              default := by
        intro v hv
        have hv2 := (List.perm_insertionSort (· ≤ ·) _).mem_iff.mp hv
        have hv3 := List.mem_dedup.mp hv2
        have hvne : v ≠ c.time := by
          have := (List.mem_filter.mp hv3).2
          simpa using this
        have hvmem : v ∈ rest.map (·.time) := (List.mem_filter.mp hv3).1
        have hvmem2 : v ∈ (rest.filter fun d => decide (d.time ≠ c.time)).map (·.time) := by
          rw [← hmapfilter]
          exact hv3
        have hne : (c.time == v) = false := by
          simp only [beq_eq_false_iff_ne, ne_eq]
          exact fun he => hvne he.symm
        rw [List.indexOf_cons, hne]
        show (c :: rest).getD (List.indexOf v (rest.map (·.time)) + 1) default = _
        simp only [List.getD_cons_succ]
        rw [getD_indexOf_map_time rest v hvmem,
          getD_indexOf_map_time _ v hvmem2]
        exact (firstWithTime_filter_ne rest v c.time hvne).symm
      rw [List.map_map]
      simp only [Function.comp_def]
      rw [List.map_congr_left htail]
      have hrest' : ((rest.filter fun d => decide (d.time ≠ c.time)).length ≤ n) := by
        have h1 := List.length_filter_le (fun d => decide (d.time ≠ c.time)) rest
        have h2 : rest.length + 1 ≤ n + 1 := by simpa using hl
        omega
      have hsorted' : List.Pairwise (· ≤ ·)
          ((rest.filter fun d => decide (d.time ≠ c.time)).map (·.time)) := by
        rw [← hmapfilter]
        exact (List.pairwise_cons.mp hs2).2.sublist (List.filter_sublist _)
      have hih := ih (rest.filter fun d => decide (d.time ≠ c.time)) hrest' hsorted'
      unfold np_unique_first_indices at hih
      rw [List.map_map] at hih
      simp only [Function.comp_def] at hih
      rw [hmapfilter, hih]
      have hrhs : dedupKeepFirstByTime (c :: rest) =
          c :: dedupKeepFirstByTime (rest.filter fun d => decide (d.time ≠ c.time)) := by
        unfold dedupKeepFirstByTime
        rw [dedupAux, if_neg (List.not_mem_nil _), dedupAux_cons_seen]
      rw [hrhs]

/-- The `np.unique` selection of `get_precomputed_tracks` agrees with the
keep-first-occurrence dedup whenever the time row is non-decreasing. -/
theorem np_dedup_eq (l : List TrackCol)
    (hs : List.Pairwise (· ≤ ·) (l.map (·.time))) :
    (np_unique_first_indices (l.map (·.time))).map (fun i => l.getD i default) =
      dedupKeepFirstByTime l :=
  np_dedup_eq_aux l.length l le_rfl hs

/-- C8: for a stored track whose time row is non-decreasing,
`get_precomputed_tracks` returns exactly the column slice `[lo, hi)` with
`lo = lower_bound(start)` and `hi = lower_bound(end)`, with columns whose
timestamp duplicates an earlier one removed, keeping the first occurrence and
preserving order. -/
theorem C8_get_range (cols : List TrackCol) (start stop : ℚ)
    (hs : List.Chain' (· ≤ ·) (cols.map (·.time))) :
    get_precomputed_tracks cols start stop =
      dedupKeepFirstByTime
        ((cols.drop (lower_bound (cols.map (·.time)) start)).take
          (lower_bound (cols.map (·.time)) stop -
            lower_bound (cols.map (·.time)) start)) := by
  unfold get_precomputed_tracks
  apply np_dedup_eq
  have hp : List.Pairwise (· ≤ ·) (cols.map (·.time)) := List.chain'_iff_pairwise.mp hs
  have hsub : (((cols.drop (lower_bound (cols.map (·.time)) start)).take
      (lower_bound (cols.map (·.time)) stop - lower_bound (cols.map (·.time)) start)).map
        (·.time)).Sublist (cols.map (·.time)) := by
    refine List.Sublist.map _ ?_
    exact (List.take_sublist _ _).trans (List.drop_sublist _ _)
  exact hp.sublist hsub

/-- Witness for `C8_get_range` on a concrete sorted five-column track with
duplicated timestamps. -/
theorem C8_get_range_witness :
    List.Chain' (· ≤ ·)
      (([⟨0, 1, 1, 1⟩, ⟨0, 2, 2, 2⟩, ⟨60, 3, 3, 3⟩, ⟨60, 4, 4, 4⟩, ⟨120, 5, 5, 5⟩] :
        List TrackCol).map (·.time)) ∧
    get_precomputed_tracks
      [⟨0, 1, 1, 1⟩, ⟨0, 2, 2, 2⟩, ⟨60, 3, 3, 3⟩, ⟨60, 4, 4, 4⟩, ⟨120, 5, 5, 5⟩] 0 120 =
      dedupKeepFirstByTime
        ((([⟨0, 1, 1, 1⟩, ⟨0, 2, 2, 2⟩, ⟨60, 3, 3, 3⟩, ⟨60, 4, 4, 4⟩, ⟨120, 5, 5, 5⟩] :
          List TrackCol).drop
            (lower_bound (([⟨0, 1, 1, 1⟩, ⟨0, 2, 2, 2⟩, ⟨60, 3, 3, 3⟩, ⟨60, 4, 4, 4⟩,
              ⟨120, 5, 5, 5⟩] : List TrackCol).map (·.time)) 0)).take
          (lower_bound (([⟨0, 1, 1, 1⟩, ⟨0, 2, 2, 2⟩, ⟨60, 3, 3, 3⟩, ⟨60, 4, 4, 4⟩,
              ⟨120, 5, 5, 5⟩] : List TrackCol).map (·.time)) 120 -
            lower_bound (([⟨0, 1, 1, 1⟩, ⟨0, 2, 2, 2⟩, ⟨60, 3, 3, 3⟩, ⟨60, 4, 4, 4⟩,
              ⟨120, 5, 5, 5⟩] : List TrackCol).map (·.time)) 0)) :=
  ⟨by norm_num,
   C8_get_range [⟨0, 1, 1, 1⟩, ⟨0, 2, 2, 2⟩, ⟨60, 3, 3, 3⟩, ⟨60, 4, 4, 4⟩, ⟨120, 5, 5, 5⟩]
     0 120 (by norm_num)⟩

/-! ### Geo primitives (C1, C2) -/

theorem atan2_pos_of_pos {y x : ℝ} (hy : 0 < y) (hx : 0 ≤ x) : 0 < atan2 y x := by
  unfold atan2
  rcases lt_or_eq_of_le hx with h | h
  · rw [if_pos h]
    have := Real.arctan_strictMono (div_pos hy h)
    rwa [Real.arctan_zero] at this
  · rw [if_neg (by rw [← h]; exact lt_irrefl 0), if_neg (by rw [← h]; exact lt_irrefl 0),
      if_pos hy]
    linarith [Real.pi_pos]

/-- `cos 90 ≠ 0` for the *radian* cosine of the number 90: `90` is not an odd
multiple of `π/2`, by the numeric bounds `3.141592 < π < 3.141593`. -/
theorem cos_ninety_ne_zero : Real.cos 90 ≠ 0 := by
  intro h
  obtain ⟨n, hn⟩ := Real.cos_eq_zero_iff.mp h
  have hpi1 : (3.141592 : ℝ) < π := Real.pi_gt_3141592
  have hpi2 : π < 3.141593 := Real.pi_lt_3141593
  have h180 : ((2 * n + 1 : ℤ) : ℝ) * π = 180 := by
    push_cast
    linarith
  rcases le_or_lt n 28 with hle | hgt
  · have hc : ((2 * n + 1 : ℤ) : ℝ) ≤ 57 := by
      have : (n : ℝ) ≤ 28 := by exact_mod_cast hle
      push_cast
      linarith
    have hmul : ((2 * n + 1 : ℤ) : ℝ) * π ≤ 57 * π :=
      mul_le_mul_of_nonneg_right hc Real.pi_pos.le
    nlinarith
  · have h29 : (29 : ℤ) ≤ n := hgt
    have hc : (59 : ℝ) ≤ ((2 * n + 1 : ℤ) : ℝ) := by
      have : (29 : ℝ) ≤ (n : ℝ) := by exact_mod_cast h29
      push_cast
      linarith
    have hmul : (59 : ℝ) * π ≤ ((2 * n + 1 : ℤ) : ℝ) * π :=
      mul_le_mul_of_nonneg_right hc Real.pi_pos.le
    nlinarith

/-- C1 fails on the code: at the two points `(lon, lat) = (0, 90)` and
`(180, 90)` (both at the north pole, so the true central angle is `0`, which is
what the spec formula gives), `haversine_angle` returns a strictly positive
angle, because the code takes `cos(lat1)`/`cos(lat2)` with the latitudes still
in degrees (`cos 90 ≠ 0` in radians), exactly as flagged by its own comment
"convert decimal degrees to radians". -/
theorem C1_latitudes_fed_to_cos_in_degrees :
    haversineSpecAngle 0 90 180 90 = 0 ∧ 0 < haversine_angle 0 90 180 90 := by
  have e1 : ((90 : ℝ) - 90) / 180.0 * π / 2 = 0 := by ring
  have e2 : ((180 : ℝ) - 0) / 180.0 * π / 2 = π / 2 := by ring
  constructor
  · simp only [haversineSpecAngle]
    rw [e1, e2]
    have e3 : (90 : ℝ) / 180.0 * π = π / 2 := by ring
    rw [e3]
    simp only [Real.sin_zero, Real.cos_pi_div_two, Real.sin_pi_div_two]
    norm_num [atan2, Real.arctan_zero]
  · have ha : haversine_a 0 90 180 90 = Real.cos 90 * Real.cos 90 := by
      simp only [haversine_a]
      rw [e1, e2]
      simp [Real.sin_zero, Real.sin_pi_div_two]
    have hapos : 0 < haversine_a 0 90 180 90 := by
      rw [ha]
      exact mul_self_pos.mpr cos_ninety_ne_zero
    have := atan2_pos_of_pos (Real.sqrt_pos.mpr hapos)
      (Real.sqrt_nonneg (1 - haversine_a 0 90 180 90))
    unfold haversine_angle
    linarith

theorem arccos_one_half_eq : Real.arccos (1 / 2) = π / 3 := by
  rw [show (1 / 2 : ℝ) = Real.cos (π / 3) from Real.cos_pi_div_three.symm]
  exact Real.arccos_cos (by positivity) (by linarith [Real.pi_pos])

/-- C2 fails on the code: the kernel's `elif` threshold is `1e6`, not the
spec's `1e-6` (the code comment "if horizon elevation is nearly 0" shows the
intent).  At `MIN_HORIZON_ELEVATION = 45°` (`ε = π/4 ≥ 1e-6` radians) and
geocentric radius `r = 2R = 12742 km`, the kernel still takes the optimized
branch and returns `acos(R/r) = π/3`, whereas the claimed formula gives
`π/2 − π/4 − asin((R/r)·sin(π/4 + π/2)) < π/3`. -/
theorem C2_fov_threshold_typo :
    kernel_fov 45 (XF.fin (2 * EARTH_RADIUS)) = XF.fin (π / 3) ∧
    fov_spec (π / 4) (2 * EARTH_RADIUS) < π / 3 ∧
    ¬ ((π / 4 : ℝ) < 1 / 1000000) := by
  refine ⟨?_, ?_, ?_⟩
  · unfold kernel_fov clampAlt sat_fov_max_angle
    have h1 : (XF.fin (2 * EARTH_RADIUS)).ltReal EARTH_RADIUS = false := by
      simp only [XF.ltReal, decide_eq_false_iff_not]
      norm_num [EARTH_RADIUS]
    rw [h1]
    simp only [Bool.false_eq_true, if_false, XF.isinf, if_pos (by norm_num : (45 : ℝ) < 1000000.0)]
    have h2 : XF.divReal EARTH_RADIUS (XF.fin (2 * EARTH_RADIUS)) = XF.fin (1 / 2) := by
      simp only [XF.divReal]
      rw [if_neg (by norm_num [EARTH_RADIUS])]
      norm_num [EARTH_RADIUS]
    rw [h2]
    simp only [XF.acos]
    rw [if_pos (by norm_num)]
    rw [arccos_one_half_eq]
  · unfold fov_spec
    rw [if_neg (by intro hcon; nlinarith [Real.pi_gt_three])]
    have hdiv : EARTH_RADIUS / (2 * EARTH_RADIUS) = 1 / 2 := by norm_num [EARTH_RADIUS]
    rw [hdiv, Real.sin_add_pi_div_two]
    have hcos : 0 < Real.cos (π / 4) := by
      rw [Real.cos_pi_div_four]
      positivity
    have harc : 0 < Real.arcsin (1 / 2 * Real.cos (π / 4)) :=
      Real.arcsin_pos.mpr (by positivity)
    nlinarith [Real.pi_pos]
  · intro hcon
    nlinarith [Real.pi_gt_three]

/-! ### Interpolator (C6, C7) -/

theorem pyint_intCast (n : ℤ) : pyint (n : ℝ) = n := by
  unfold pyint
  split
  · exact Int.floor_intCast n
  · exact Int.ceil_intCast n

/-- Core gap bound for truncated interpolation times: advancing the real
argument by `d ≤ c` advances the truncation by at most `c`. -/
theorem pyint_gap {x d : ℝ} {c : ℤ} (hd : 0 ≤ d) (hdc : d ≤ (c : ℝ)) :
    pyint (x + d) - pyint x ≤ c := by
  unfold pyint
  rcases le_or_lt 0 x with hx | hx
  · rw [if_pos (by linarith), if_pos hx]
    have h1 : ⌊x + d⌋ ≤ ⌊x + (c : ℝ)⌋ := Int.floor_mono (by linarith)
    rw [Int.floor_add_int] at h1
    omega
  · rcases le_or_lt 0 (x + d) with hxd | hxd
    · rw [if_pos hxd, if_neg (not_le.mpr hx)]
      have h1 : ⌊x + d⌋ ≤ ⌊x + (c : ℝ)⌋ := Int.floor_mono (by linarith)
      rw [Int.floor_add_int] at h1
      have h2 : ⌊x⌋ ≤ ⌈x⌉ := Int.floor_le_ceil x
      omega
    · rw [if_neg (not_le.mpr hxd), if_neg (not_le.mpr hx)]
      have h1 : ⌈x + d⌉ ≤ ⌈x + (c : ℝ)⌉ := Int.ceil_mono (by linarith)
      rw [Int.ceil_add_int] at h1
      omega

theorem expandPair_eq_nil_of_gap (maxdist : ℝ) (maxdt : ℤ) (a b : AISRow)
    (h : b.time - a.time ≤ maxdt) : expandPair maxdist maxdt a b = [] := by
  unfold expandPair
  by_cases hm : a.mmsi ≠ b.mmsi
  · rw [if_pos hm]
  · rw [if_neg hm, if_neg (not_lt.mpr h)]

theorem interpolate_head (maxdist : ℝ) (maxdt : ℤ) (r : AISRow) (l : List AISRow) :
    ∃ tl, interpolate_track maxdist maxdt (r :: l) = r :: tl := by
  cases l with
  | nil => exact ⟨[], rfl⟩
  | cons b bs => exact ⟨_, rfl⟩

theorem interpolate_of_chain (maxdist : ℝ) (maxdt : ℤ) (l : List AISRow)
    (h : List.Chain' (fun a b => expandPair maxdist maxdt a b = []) l) :
    interpolate_track maxdist maxdt l = l := by
  induction l with
  | nil => rfl
  | cons r rest ih =>
    cases rest with
    | nil => rfl
    | cons b bs =>
      rw [interpolate_track]
      obtain ⟨h1, h2⟩ := List.chain'_cons.mp h
      rw [h1, List.nil_append, ih h2]

/-- After one expansion step with positive `maxdt`, every adjacent pair in
`r :: expandPair r b ++ b :: tl` is within `maxdt` or already non-expanding,
so a chain of non-expanding links through `b :: tl` extends through the
inserted rows. -/
theorem chain_cons_expand (maxdist : ℝ) (maxdt : ℤ) (hdt : 0 < maxdt)
    (r b : AISRow) (tl : List AISRow)
    (htl : List.Chain' (fun a b2 => expandPair maxdist maxdt a b2 = []) (b :: tl)) :
    List.Chain' (fun a b2 => expandPair maxdist maxdt a b2 = [])
      (r :: (expandPair maxdist maxdt r b ++ (b :: tl))) := by
  by_cases hnil : expandPair maxdist maxdt r b = []
  · rw [hnil, List.nil_append]
    exact List.chain'_cons.mpr ⟨hnil, htl⟩
  · have hm : ¬ r.mmsi ≠ b.mmsi := by
      intro hne
      exact hnil (by unfold expandPair; rw [if_pos hne])
    have ht : maxdt < b.time - r.time := by
      by_contra hle
      exact hnil (expandPair_eq_nil_of_gap maxdist maxdt r b (not_lt.mp hle))
    have hdist : ¬ (maxdist < haversine_dist r.lon r.lat b.lon b.lat) := by
      intro hgt
      exact hnil (by unfold expandPair; rw [if_neg hm, if_pos ht, if_pos hgt])
    have hmm : r.mmsi = b.mmsi := not_not.mp hm
    set Δ : ℤ := b.time - r.time with hΔ
    set K : ℤ := ⌈((Δ : ℤ) : ℝ) / ((maxdt : ℤ) : ℝ)⌉ with hK
    have hdtR : (0 : ℝ) < (maxdt : ℝ) := by exact_mod_cast hdt
    have hK2 : 2 ≤ K := by
      have h1 : (1 : ℝ) < (Δ : ℝ) / (maxdt : ℝ) := by
        rw [lt_div_iff hdtR]
        have : (maxdt : ℝ) < (Δ : ℝ) := by exact_mod_cast ht
        linarith
      have h2 : ((1 : ℤ) : ℝ) < (Δ : ℝ) / (maxdt : ℝ) := by exact_mod_cast h1
      have := Int.lt_ceil.mpr h2
      omega
    have hKR : (0 : ℝ) < (K : ℝ) := by
      have : (0 : ℤ) < K := by omega
      exact_mod_cast this
    set d : ℝ := ((Δ : ℤ) : ℝ) / ((K : ℤ) : ℝ) with hd
    have hd0 : 0 ≤ d := by
      apply div_nonneg _ hKR.le
      have : (0 : ℤ) < Δ := by omega
      exact_mod_cast this.le
    have hdle : d ≤ (maxdt : ℝ) := by
      rw [hd, div_le_iff hKR]
      have h1 : ((Δ : ℝ) / (maxdt : ℝ)) ≤ (K : ℝ) := Int.le_ceil _
      calc (Δ : ℝ) = ((Δ : ℝ) / (maxdt : ℝ)) * (maxdt : ℝ) := by field_simp
        _ ≤ (K : ℝ) * (maxdt : ℝ) := by
            exact mul_le_mul_of_nonneg_right h1 hdtR.le
        _ = (maxdt : ℝ) * (K : ℝ) := by ring
    have hexp : expandPair maxdist maxdt r b =
        (List.range (K.toNat - 1)).map fun j0 =>
          { mmsi := r.mmsi,
            time := pyint (d * ((j0 : ℝ) + 1) + (r.time : ℝ)),
            lat := (b.lat - r.lat) / ((K : ℤ) : ℝ) * ((j0 : ℝ) + 1) + r.lat,
            lon := (b.lon - r.lon) / ((K : ℤ) : ℝ) * ((j0 : ℝ) + 1) + r.lon } := by
      unfold expandPair
      rw [if_neg hm, if_pos ht, if_neg hdist]
    set g : ℕ → AISRow := fun j0 =>
      { mmsi := r.mmsi,
        time := pyint (d * ((j0 : ℝ) + 1) + (r.time : ℝ)),
        lat := (b.lat - r.lat) / ((K : ℤ) : ℝ) * ((j0 : ℝ) + 1) + r.lat,
        lon := (b.lon - r.lon) / ((K : ℤ) : ℝ) * ((j0 : ℝ) + 1) + r.lon } with hg
    rw [hexp]
    have hm1 : 1 ≤ K.toNat - 1 := by omega
    obtain ⟨mm, hmm1⟩ : ∃ mm, K.toNat - 1 = mm + 1 := ⟨K.toNat - 2, by omega⟩
    -- time of g j is pyint of x_j := d * (j+1) + r.time, and consecutive
    -- g-rows, as well as the links r → g 0 and g mm → b, are ≤ maxdt apart.
    have hgap : ∀ j0 : ℕ, (g (j0 + 1)).time - (g j0).time ≤ maxdt := by
      intro j0
      have harg : d * (((j0 : ℕ) + 1 : ℕ) : ℝ) + (r.time : ℝ) + d =
          d * (((j0 + 1 : ℕ) : ℝ) + 1) + (r.time : ℝ) := by
        push_cast
        ring
      simp only [hg]
      have := pyint_gap (x := d * ((j0 : ℝ) + 1) + (r.time : ℝ)) hd0 hdle
      have harg2 : d * ((j0 : ℝ) + 1) + (r.time : ℝ) + d =
          d * (((j0 + 1 : ℕ) : ℝ) + 1) + (r.time : ℝ) := by
        push_cast
        ring
      rw [harg2] at this
      omega
    have hlink0 : (g 0).time - r.time ≤ maxdt := by
      have := pyint_gap (x := ((r.time : ℤ) : ℝ)) hd0 hdle
      rw [pyint_intCast] at this
      have harg : ((r.time : ℤ) : ℝ) + d = d * (((0 : ℕ) : ℝ) + 1) + (r.time : ℝ) := by
        push_cast
        ring
      rw [harg] at this
      simp only [hg]
      omega
    have hlinkb : b.time - (g mm).time ≤ maxdt := by
      have hKtoNat : ((K.toNat : ℤ) : ℝ) = (K : ℝ) := by
        have := Int.toNat_of_nonneg (by omega : (0 : ℤ) ≤ K)
        exact_mod_cast congrArg (fun z : ℤ => (z : ℝ)) this
      have hmmK : ((mm : ℕ) : ℝ) + 2 = (K : ℝ) := by
        have h1 : mm + 2 = K.toNat := by omega
        rw [← hKtoNat]
        push_cast [← h1]
        ring
      have hbt : (b.time : ℝ) = (d * ((mm : ℝ) + 1) + (r.time : ℝ)) + d := by
        have hdK : d * (K : ℝ) = (Δ : ℝ) := by
          rw [hd]
          field_simp
        have : d * ((mm : ℝ) + 1) + d = d * (K : ℝ) := by
          rw [← hmmK]
          ring
        have hbt2 : (b.time : ℝ) = (Δ : ℝ) + (r.time : ℝ) := by
          rw [hΔ]
          push_cast
          ring
        rw [hbt2, ← hdK, ← this]
        ring
      have := pyint_gap (x := d * ((mm : ℝ) + 1) + (r.time : ℝ)) hd0 hdle
      rw [← hbt] at this
      have hbint : pyint ((b.time : ℤ) : ℝ) = b.time := pyint_intCast b.time
      simp only [hg]
      omega
    -- assemble the chain
    have hchainA : List.Chain' (fun a b2 => expandPair maxdist maxdt a b2 = [])
        ((List.range (K.toNat - 1)).map g) := by
      rw [List.chain'_map]
      rw [hmm1]
      rw [List.chain'_range_succ]
      intro i hi
      exact expandPair_eq_nil_of_gap maxdist maxdt (g i) (g (i + 1)) (hgap i)
    have hA : (List.range (K.toNat - 1)).map g =
        ((List.range mm).map g) ++ [g mm] := by
      rw [hmm1, List.range_succ, List.map_append]
      rfl
    apply List.chain'_cons'.mpr
    constructor
    · intro y hy
      rw [hmm1] at hy
      simp only [List.range_succ_eq_map, List.map_cons, List.head?_cons,
        List.cons_append, Option.mem_def] at hy
      obtain rfl := Option.some_inj.mp hy
      exact expandPair_eq_nil_of_gap maxdist maxdt r (g 0) hlink0
    · apply List.Chain'.append hchainA htl
      intro x hx y hy
      rw [hA, List.getLast?_concat] at hx
      simp only [Option.mem_def, List.head?_cons] at hx hy
      obtain rfl := Option.some_inj.mp hx
      obtain rfl := Option.some_inj.mp hy
      exact expandPair_eq_nil_of_gap maxdist maxdt (g mm) b hlinkb

/-- The output of one interpolation pass is a chain of non-expanding adjacent
pairs: every adjacent same-vessel pair is within `maxdt`, or was an original
pair skipped for distance or vessel-change reasons. -/
theorem interpolate_chain (maxdist : ℝ) (maxdt : ℤ) (hdt : 0 < maxdt)
    (l : List AISRow) :
    List.Chain' (fun a b => expandPair maxdist maxdt a b = [])
      (interpolate_track maxdist maxdt l) := by
  induction l with
  | nil => simp [interpolate_track]
  | cons r rest ih =>
    cases rest with
    | nil => simp [interpolate_track]
    | cons b bs =>
      rw [interpolate_track]
      obtain ⟨tl, htl⟩ := interpolate_head maxdist maxdt b bs
      rw [htl]
      apply chain_cons_expand maxdist maxdt hdt r b tl
      rw [← htl]
      exact ih

/-- C7: the interpolator is a fixpoint under repetition, for any sorted input
and positive `max_dt_s`. -/
theorem C7_interpolator_fixpoint (maxdist : ℝ) (maxdt : ℤ) (hdt : 0 < maxdt)
    (rows : List AISRow) (_hs : sortedByMmsiTime rows) :
    interpolate_track maxdist maxdt (interpolate_track maxdist maxdt rows) =
      interpolate_track maxdist maxdt rows :=
  interpolate_of_chain maxdist maxdt _ (interpolate_chain maxdist maxdt hdt rows)

/-- Witness for `C7_interpolator_fixpoint` on a concrete two-ping track with a
400 s gap and `max_dt_s = 300`. -/
theorem C7_interpolator_fixpoint_witness :
    (0 : ℤ) < 300 ∧ sortedByMmsiTime [⟨1, 0, 0, 0⟩, ⟨1, 400, 0, 0⟩] ∧
    interpolate_track 200 300 (interpolate_track 200 300 [⟨1, 0, 0, 0⟩, ⟨1, 400, 0, 0⟩]) =
      interpolate_track 200 300 [⟨1, 0, 0, 0⟩, ⟨1, 400, 0, 0⟩] :=
  ⟨by norm_num, by norm_num [sortedByMmsiTime],
   C7_interpolator_fixpoint 200 300 (by norm_num) _ (by norm_num [sortedByMmsiTime])⟩

theorem haversine_dist_zero_zero : haversine_dist 0 0 0 0 = 0 := by
  unfold haversine_dist haversine_angle haversine_a atan2
  norm_num [Real.arctan_zero]

/-- C6, amended: between a same-vessel pair with `Δt > max_dt_s` and distance
within `max_dist_km` the interpolator inserts exactly `K - 1` rows with
`K = ⌈Δt / max_dt_s⌉`; row `j` (for `j = 1..K-1`) carries `lat` and `lon`
linearly interpolated at fraction `j/K`, but its time is the *integer
truncation* `int(·)` of the linearly interpolated time, not the exact linear
interpolation; in all other cases (vessel change, small gap, large distance)
nothing is inserted. -/
theorem C6_segment_expansion (maxdist : ℝ) (maxdt : ℤ) (cur next : AISRow)
    (rest : List AISRow) :
    ((cur.mmsi = next.mmsi ∧ maxdt < next.time - cur.time ∧
        ¬ (maxdist < haversine_dist cur.lon cur.lat next.lon next.lat)) →
      interpolate_track maxdist maxdt (cur :: next :: rest) =
        cur ::
          (((List.range
              ((⌈((next.time - cur.time : ℤ) : ℝ) / ((maxdt : ℤ) : ℝ)⌉).toNat - 1)).map
            fun (j0 : ℕ) =>
              { mmsi := cur.mmsi,
                time := pyint ((cur.time : ℝ) +
                  ((j0 : ℝ) + 1) /
                    ((⌈((next.time - cur.time : ℤ) : ℝ) / ((maxdt : ℤ) : ℝ)⌉ : ℤ) : ℝ) *
                    ((next.time - cur.time : ℤ) : ℝ)),
                lat := cur.lat + ((j0 : ℝ) + 1) /
                    ((⌈((next.time - cur.time : ℤ) : ℝ) / ((maxdt : ℤ) : ℝ)⌉ : ℤ) : ℝ) *
                    (next.lat - cur.lat),
                lon := cur.lon + ((j0 : ℝ) + 1) /
                    ((⌈((next.time - cur.time : ℤ) : ℝ) / ((maxdt : ℤ) : ℝ)⌉ : ℤ) : ℝ) *
                    (next.lon - cur.lon) }) ++
            interpolate_track maxdist maxdt (next :: rest))) ∧
    ((cur.mmsi ≠ next.mmsi ∨ next.time - cur.time ≤ maxdt ∨
        maxdist < haversine_dist cur.lon cur.lat next.lon next.lat) →
      interpolate_track maxdist maxdt (cur :: next :: rest) =
        cur :: interpolate_track maxdist maxdt (next :: rest)) := by
  constructor
  · rintro ⟨hm, ht, hd⟩
    rw [interpolate_track]
    have hexp : expandPair maxdist maxdt cur next =
        (List.range
            ((⌈((next.time - cur.time : ℤ) : ℝ) / ((maxdt : ℤ) : ℝ)⌉).toNat - 1)).map
          fun (j0 : ℕ) =>
            { mmsi := cur.mmsi,
              time := pyint (((next.time - cur.time : ℤ) : ℝ) /
                  ((⌈((next.time - cur.time : ℤ) : ℝ) / ((maxdt : ℤ) : ℝ)⌉ : ℤ) : ℝ) *
                  ((j0 : ℝ) + 1) + (cur.time : ℝ)),
              lat := (next.lat - cur.lat) /
                  ((⌈((next.time - cur.time : ℤ) : ℝ) / ((maxdt : ℤ) : ℝ)⌉ : ℤ) : ℝ) *
                  ((j0 : ℝ) + 1) + cur.lat,
              lon := (next.lon - cur.lon) /
                  ((⌈((next.time - cur.time : ℤ) : ℝ) / ((maxdt : ℤ) : ℝ)⌉ : ℤ) : ℝ) *
                  ((j0 : ℝ) + 1) + cur.lon } := by
      unfold expandPair
      rw [if_neg (not_ne_iff.mpr hm), if_pos ht, if_neg hd]
    rw [hexp]
    refine congrArg _ (congrArg (· ++ _) (List.map_congr_left ?_))
    intro j0 _
    simp only [AISRow.mk.injEq]
    exact ⟨trivial, congrArg pyint (by ring), by ring, by ring⟩
  · rintro (hm | ht | hd)
    · rw [interpolate_track]
      rw [show expandPair maxdist maxdt cur next = [] from by
        unfold expandPair; rw [if_pos hm], List.nil_append]
    · rw [interpolate_track, expandPair_eq_nil_of_gap maxdist maxdt cur next ht,
        List.nil_append]
    · rw [interpolate_track]
      rw [show expandPair maxdist maxdt cur next = [] from by
        unfold expandPair
        by_cases hm2 : cur.mmsi ≠ next.mmsi
        · rw [if_pos hm2]
        · rw [if_neg hm2]
          by_cases ht2 : maxdt < next.time - cur.time
          · rw [if_pos ht2, if_pos hd]
          · rw [if_neg ht2], List.nil_append]

/-- C6 as stated is false: for the same-vessel pair at times 0 and 301 with
co-located positions and `max_dt_s = 300`, `K = ⌈301/300⌉ = 2` and the single
inserted row carries time `int(150.5) = 150`, which is not the linear
interpolation `0 + (1/2)·(301 − 0) = 150.5` the claim prescribes. -/
theorem C6_counterexample :
    interpolate_track 200 300 [⟨1, 0, 0, 0⟩, ⟨1, 301, 0, 0⟩] =
      [⟨1, 0, 0, 0⟩, ⟨1, 150, 0, 0⟩, ⟨1, 301, 0, 0⟩] ∧
    ((150 : ℝ) ≠ (0 : ℝ) + 1 / 2 * (301 - 0)) := by
  constructor
  · have hexp : expandPair 200 300 ⟨1, 0, 0, 0⟩ ⟨1, 301, 0, 0⟩ = [⟨1, 150, 0, 0⟩] := by
      unfold expandPair
      norm_num [haversine_dist_zero_zero]
      have hceil : ⌈(301 : ℝ) / 300⌉ = (2 : ℤ) := by
        rw [Int.ceil_eq_iff]
        norm_num
      rw [hceil]
      have hpy : pyint ((301 : ℝ) / 2) = 150 := by
        unfold pyint
        rw [if_pos (by norm_num), Int.floor_eq_iff]
        norm_num
      rw [show Int.toNat 2 - 1 = 1 from rfl, show List.range 1 = [0] from rfl]
      push_cast
      norm_num [hpy]
    rw [interpolate_track, hexp]
    rfl
  · norm_num

/-- Witness for `C6_segment_expansion` at the pair of co-located pings 301 s
apart with `max_dt_s = 300`: the expansion hypotheses hold and the single
inserted row is the truncated-time midpoint. -/
theorem C6_segment_expansion_witness :
    ((1 : ℤ) = 1 ∧ (300 : ℤ) < (301 : ℤ) - 0 ∧
      ¬ ((200 : ℝ) < haversine_dist 0 0 0 0)) ∧
    interpolate_track 200 300 [(⟨1, 0, 0, 0⟩ : AISRow), ⟨1, 301, 0, 0⟩] =
      [⟨1, 0, 0, 0⟩, ⟨1, 150, 0, 0⟩, ⟨1, 301, 0, 0⟩] := by
  refine ⟨⟨rfl, by norm_num, by rw [haversine_dist_zero_zero]; norm_num⟩, ?_⟩
  have h := (C6_segment_expansion 200 300 ⟨1, 0, 0, 0⟩ ⟨1, 301, 0, 0⟩ []).1
    ⟨rfl, by norm_num, by rw [haversine_dist_zero_zero]; norm_num⟩
  rw [h]
  dsimp only
  norm_num
  have hceil : ⌈(301 : ℝ) / 300⌉ = (2 : ℤ) := by
    rw [Int.ceil_eq_iff]
    norm_num
  rw [hceil]
  have hpy : pyint ((301 : ℝ) / 2) = 150 := by
    unfold pyint
    rw [if_pos (by norm_num), Int.floor_eq_iff]
    norm_num
  rw [show Int.toNat 2 - 1 = 1 from rfl, show List.range 1 = [0] from rfl]
  push_cast
  norm_num [hpy]
  rfl

/-! ### Intersection kernel (C3, C4, C10) -/

theorem computeLoop_length (sat_time : List ℤ) (sat_lat sat_long : List ℝ)
    (sat_alt : List XF) (MIN : ℝ) :
    ∀ (v : List VRow) (output : List Bool) (st : KState),
      (computeLoop sat_time sat_lat sat_long sat_alt MIN v output st).length =
        output.length := by
  intro v
  induction v with
  | nil => intro output st; rfl
  | cons vr vs ih =>
    intro output st
    cases output with
    | nil => rfl
    | cons b bs =>
      rw [computeLoop]
      split
      · simp [ih]
      · split
        · rfl
        · simp [ih]

theorem bool_ite_frame (C b : Bool) :
    (if C = true then true else b) = b ∨ (if C = true then true else b) = true := by
  cases C
  · simp
  · simp

theorem computeLoop_frame (sat_time : List ℤ) (sat_lat sat_long : List ℝ)
    (sat_alt : List XF) (MIN : ℝ) :
    ∀ (v : List VRow) (output : List Bool) (st : KState) (i : ℕ),
      (computeLoop sat_time sat_lat sat_long sat_alt MIN v output st).getD i false =
          output.getD i false ∨
        (computeLoop sat_time sat_lat sat_long sat_alt MIN v output st).getD i false =
          true := by
  intro v
  induction v with
  | nil => intro output st i; exact Or.inl rfl
  | cons vr vs ih =>
    intro output st i
    cases output with
    | nil => exact Or.inl rfl
    | cons b bs =>
      rw [computeLoop]
      split
      · cases i with
        | zero => exact Or.inl rfl
        | succ j => simpa using ih bs _ j
      · split
        · exact Or.inl rfl
        · cases i with
          | zero =>
            simp only [List.getD_cons_zero]
            exact bool_ite_frame _ b
          | succ j => simpa using ih bs _ j

theorem getD_lt_of_pairwise {l : List ℤ} (h : List.Pairwise (· < ·) l)
    {i j : ℕ} (hij : i < j) (hj : j < l.length) :
    l.getD i 0 < l.getD j 0 := by
  have hi : i < l.length := lt_trans hij hj
  rw [List.getD_eq_getElem _ _ hi, List.getD_eq_getElem _ _ hj]
  exact List.pairwise_iff_getElem.mp h i j hi hj hij

theorem getD_le_of_pairwise {l : List ℤ} (h : List.Pairwise (· < ·) l)
    {i j : ℕ} (hij : i ≤ j) (hj : j < l.length) :
    l.getD i 0 ≤ l.getD j 0 := by
  rcases eq_or_lt_of_le hij with rfl | hlt
  · exact le_refl _
  · exact (getD_lt_of_pairwise h hlt hj).le

/-- Full specification of the bracket-advancing sweep `advanceSat`: starting
from a valid bracket `sat_time[k-1] ≤ · < sat_time[k]` state with `satL ≤ t`,
it either reports the end of the satellite track (`t` at or past the last
sample) or stops at the unique bracket containing `t`, setting `dirty` iff it
moved. -/
theorem advanceSat_spec (sat_time : List ℤ) (hsat : List.Pairwise (· < ·) sat_time)
    (t : ℤ) :
    ∀ (fuel k : ℕ) (satL satR : ℤ) (dirty : Bool),
      sat_time.length - k ≤ fuel →
      1 ≤ k → k < sat_time.length →
      satL = sat_time.getD (k - 1) 0 → satR = sat_time.getD k 0 → satL ≤ t →
      (advanceSat sat_time t k satL satR dirty = none →
        sat_time.getD (sat_time.length - 1) 0 ≤ t) ∧
      (∀ k2 L2 R2 d2,
        advanceSat sat_time t k satL satR dirty = some (k2, L2, R2, d2) →
        1 ≤ k2 ∧ k2 < sat_time.length ∧ L2 = sat_time.getD (k2 - 1) 0 ∧
        R2 = sat_time.getD k2 0 ∧ L2 ≤ t ∧ t < R2 ∧
        d2 = (dirty || decide (k < k2)) ∧ k ≤ k2) := by
  intro fuel
  induction fuel with
  | zero =>
    intro k satL satR dirty hfuel hk1 hklen _ _ _
    omega
  | succ fuel ihf =>
    intro k satL satR dirty hfuel hk1 hklen hL hR hLt
    rw [advanceSat]
    by_cases hadv : satR ≤ t
    · rw [if_pos hadv]
      by_cases hend : sat_time.length ≤ k + 1
      · rw [if_pos hend]
        have hkeq : k = sat_time.length - 1 := by omega
        refine ⟨fun _ => ?_, fun k2 L2 R2 d2 h2 => Option.noConfusion h2⟩
        rw [← hkeq, ← hR]
        exact hadv
      · rw [if_neg hend]
        have hk1len : k + 1 < sat_time.length := by omega
        have hres := ihf (k + 1) satR (sat_time.getD (k + 1) 0) true
          (by omega) (by omega) hk1len (by simpa using hR) rfl hadv
        refine ⟨hres.1, fun k2 L2 R2 d2 h2 => ?_⟩
        obtain ⟨a1, a2, a3, a4, a5, a6, a7, a8⟩ := hres.2 k2 L2 R2 d2 h2
        refine ⟨a1, a2, a3, a4, a5, a6, ?_, by omega⟩
        rw [a7]
        have : k < k2 := by omega
        simp [this]
    · rw [if_neg hadv]
      refine ⟨fun h => Option.noConfusion h, fun k2 L2 R2 d2 h2 => ?_⟩
      obtain ⟨rfl, rfl, rfl, rfl⟩ : k = k2 ∧ satL = L2 ∧ satR = R2 ∧ dirty = d2 := by
        simpa [Prod.ext_iff] using Option.some_inj.mp h2
      refine ⟨hk1, hklen, hL, hR, hLt, not_le.mp hadv, by simp, le_refl k⟩

/-- For a strictly sorted satellite time row, the count of samples `≤ t` is the
unique bracket index `k` with `sat_time[k-1] ≤ t < sat_time[k]`. -/
theorem countP_bracket : ∀ (l : List ℤ), List.Pairwise (· < ·) l → ∀ (k : ℕ) (t : ℤ),
    1 ≤ k → k < l.length → l.getD (k - 1) 0 ≤ t → t < l.getD k 0 →
    l.countP (fun s => decide (s ≤ t)) = k := by
  intro l
  induction l with
  | nil =>
    intro _ k t _ hklen _ _
    simp at hklen
  | cons c rest ih =>
    intro hp k t hk1 hklen hle hlt
    rcases Nat.lt_or_ge k 2 with hk2 | hk2
    · have hkeq : k = 1 := by omega
      subst hkeq
      have hc : c ≤ t := by simpa using hle
      rw [List.countP_cons_of_pos _ _ (by simpa using hc)]
      have hrest0 : t < rest.getD 0 0 := by simpa using hlt
      have hz : rest.countP (fun s => decide (s ≤ t)) = 0 := by
        rw [List.countP_eq_zero]
        intro a ha
        simp only [decide_eq_true_eq]
        intro hat
        cases rest with
        | nil => simp at ha
        | cons r0 rest2 =>
          simp only [List.getD_cons_zero] at hrest0
          rcases List.mem_cons.mp ha with rfl | ha2
          · exact absurd hat (not_le.mpr hrest0)
          · have hr0a : r0 < a :=
              List.rel_of_pairwise_cons (List.pairwise_cons.mp hp).2 ha2
            omega
      omega
    · have hlen2 : k - 1 < (c :: rest).length := by omega
      have hc : c ≤ t := by
        have h0 := getD_le_of_pairwise hp (show 0 ≤ k - 1 by omega) hlen2
        simp only [List.getD_cons_zero] at h0
        exact le_trans h0 hle
      rw [List.countP_cons_of_pos _ _ (by simpa using hc)]
      have hle2 : rest.getD (k - 1 - 1) 0 ≤ t := by
        rw [show k - 1 = (k - 2) + 1 by omega, List.getD_cons_succ] at hle
        rw [show k - 1 - 1 = k - 2 by omega]
        exact hle
      have hlt2 : t < rest.getD (k - 1) 0 := by
        rw [show k = (k - 1) + 1 by omega, List.getD_cons_succ] at hlt
        exact hlt
      have := ih (List.pairwise_cons.mp hp).2 (k - 1) t (by omega)
        (by simp at hklen; omega) hle2 hlt2
      omega

/-- An in-range vessel time has a bracket in a strictly sorted, length ≥ 2
satellite time row. -/
theorem exists_bracket : ∀ (l : List ℤ), List.Pairwise (· < ·) l → 2 ≤ l.length →
    ∀ t : ℤ, l.getD 0 0 ≤ t → t < l.getD (l.length - 1) 0 →
    ∃ k, 1 ≤ k ∧ k < l.length ∧ l.getD (k - 1) 0 ≤ t ∧ t < l.getD k 0 := by
  intro l
  induction l with
  | nil =>
    intro _ h2
    simp at h2
  | cons c rest ih =>
    intro hp h2 t h0 hlast
    cases rest with
    | nil => simp at h2
    | cons r0 rest2 =>
      by_cases ht : t < r0
      · exact ⟨1, le_refl 1, by simp, by simpa using h0, by simpa using ht⟩
      · cases rest2 with
        | nil =>
          exfalso
          have : t < r0 := by simpa using hlast
          exact ht this
        | cons r1 rest3 =>
          have h0b : (r0 :: r1 :: rest3).getD 0 0 ≤ t := by
            simpa using not_lt.mp ht
          have hlastb : t < (r0 :: r1 :: rest3).getD ((r0 :: r1 :: rest3).length - 1) 0 := by
            have hlen : (c :: r0 :: r1 :: rest3).length - 1 =
                ((r0 :: r1 :: rest3).length - 1) + 1 := by simp
            rw [hlen, List.getD_cons_succ] at hlast
            exact hlast
          obtain ⟨k2, hk1, hklen, hle, hlt⟩ :=
            ih (List.pairwise_cons.mp hp).2 (by simp) t h0b hlastb
          refine ⟨k2 + 1, by omega,
            by simp only [List.length_cons] at hklen ⊢; omega, ?_, ?_⟩
          · rw [show k2 + 1 - 1 = (k2 - 1) + 1 by omega, List.getD_cons_succ]
            exact hle
          · rw [List.getD_cons_succ]
            exact hlt

theorem clampAlt_idem (a : XF) : clampAlt (clampAlt a) = clampAlt a := by
  unfold clampAlt
  by_cases h : a.ltReal EARTH_RADIUS = true
  · rw [if_pos h]
    have hf : (XF.fin EARTH_RADIUS).ltReal EARTH_RADIUS = false := by
      simp [XF.ltReal]
    rw [if_neg (by simp [hf])]
  · rw [if_neg h, if_neg h]

theorem chainLe_of_chain {vr : VRow} {v : List VRow}
    (h : List.Chain' (fun a b => a.t ≤ b.t) (vr :: v)) :
    ∀ w ∈ v, vr.t ≤ w.t := by
  induction v generalizing vr with
  | nil => simp
  | cons b bs ih =>
    intro w hw
    obtain ⟨h1, h2⟩ := List.chain'_cons.mp h
    rcases List.mem_cons.mp hw with rfl | hw2
    · exact h1
    · exact le_trans h1 (ih h2 w hw2)

theorem zipWith_step_of_out_of_range (sat_time : List ℤ) (sat_lat sat_long : List ℝ)
    (sat_alt : List XF) (MIN : ℝ) :
    ∀ (vs : List VRow) (bs : List Bool), bs.length = vs.length →
      (∀ w ∈ vs, inRangeB sat_time w.t = false) →
      List.zipWith (fun w b =>
        if (inRangeB sat_time w.t &&
            hitPure sat_time sat_lat sat_long sat_alt MIN w) = true then true else b)
        vs bs = bs := by
  intro vs
  induction vs with
  | nil =>
    intro bs hlen _
    have hb : bs = [] := List.length_eq_zero.mp (by simpa using hlen)
    subst hb
    rfl
  | cons w ws ih =>
    intro bs hlen hout
    cases bs with
    | nil => simp at hlen
    | cons b bs2 =>
      rw [List.zipWith_cons_cons]
      rw [hout w (List.mem_cons_self w ws)]
      simp only [Bool.false_and, if_neg (by simp : ¬ (false = true))]
      rw [ih bs2 (by simpa using hlen) (fun w2 hw2 => hout w2 (List.mem_cons_of_mem w hw2))]

theorem hitPure_eq (sat_time : List ℤ) (sat_lat sat_long : List ℝ) (sat_alt : List XF)
    (MIN : ℝ) (w : VRow) (k2 : ℕ) (hbr : bracketIdx sat_time w.t = k2) :
    hitPure sat_time sat_lat sat_long sat_alt MIN w =
      XF.le
        (haversineXF (interpR sat_time sat_long k2 w.t) (interpR sat_time sat_lat k2 w.t)
          w.lon w.lat)
        (sat_fov_max_angle MIN (clampAlt (interpXF sat_time sat_alt k2 w.t))) := by
  unfold hitPure
  rw [hbr]

/-- Master cache-correctness lemma for the sweep loop: started in a consistent
state on sorted inputs, `computeLoop` computes, cell by cell, the pure
per-row decision (in satellite range and inside the FOV) or passes the buffer
cell through unchanged.  The invariant carries the bracket equations, the
meaning of a clean (`dirty = false`) cache, and the last seen vessel time. -/
theorem computeLoop_eq_spec (sat_time : List ℤ) (sat_lat sat_long : List ℝ)
    (sat_alt : List XF) (MIN : ℝ) (hsat : List.Pairwise (· < ·) sat_time) :
    ∀ (v : List VRow) (output : List Bool) (st : KState),
      List.Chain' (fun a b => a.t ≤ b.t) v →
      output.length = v.length →
      1 ≤ st.k → st.k < sat_time.length →
      st.satL = sat_time.getD (st.k - 1) 0 →
      st.satR = sat_time.getD st.k 0 →
      (st.k = 1 ∨ ∃ p, st.prev = some p ∧ st.satL ≤ p) →
      (st.dirty = false → ∃ p, st.prev = some p ∧ st.satL ≤ p ∧ p < st.satR ∧
        st.ilat = interpR sat_time sat_lat st.k p ∧
        st.ilon = interpR sat_time sat_long st.k p ∧
        st.ialt = clampAlt (interpXF sat_time sat_alt st.k p)) →
      (∀ p, st.prev = some p → ∀ w ∈ v, p ≤ w.t) →
      computeLoop sat_time sat_lat sat_long sat_alt MIN v output st =
        List.zipWith (fun w c =>
          if (inRangeB sat_time w.t &&
              hitPure sat_time sat_lat sat_long sat_alt MIN w) = true then true else c)
          v output := by
  intro v
  induction v with
  | nil =>
    intro output st _ hlen _ _ _ _ _ _ _
    have hout : output = [] := List.length_eq_zero.mp (by simpa using hlen)
    subst hout
    rfl
  | cons vr vs ih =>
    intro output st hv hlen hk1 hklen hL hR hprev hdirty hglue
    cases output with
    | nil => simp at hlen
    | cons b bs =>
      obtain ⟨sk, sL, sR, sd, si1, si2, si3, sp⟩ := st
      dsimp only at hk1 hklen hL hR hprev hdirty hglue
      rw [computeLoop, List.zipWith_cons_cons]
      dsimp only
      by_cases hskip : vr.t < sL
      · rw [if_pos hskip]
        have hk1eq : sk = 1 := by
          rcases hprev with h1 | ⟨p, hp, hple⟩
          · exact h1
          · exact absurd (le_trans hple (hglue p hp vr (List.mem_cons_self vr vs)))
              (not_le.mpr hskip)
        subst hk1eq
        have hL0 : sL = sat_time.getD 0 0 := by simpa using hL
        have hout : inRangeB sat_time vr.t = false := by
          unfold inRangeB
          rw [decide_eq_false (by rw [← hL0]; exact not_le.mpr hskip), Bool.false_and]
        rw [hout, Bool.false_and, if_neg Bool.false_ne_true]
        congr 1
        refine ih bs _ ?_ ?_ ?_ ?_ ?_ ?_ ?_ ?_ ?_
        · exact (List.chain'_cons'.mp hv).2
        · simpa using hlen
        · exact hk1
        · exact hklen
        · exact hL
        · exact hR
        · exact Or.inl rfl
        · intro hdf
          exfalso
          obtain ⟨p, hp, hple, -, -, -, -⟩ := hdirty hdf
          exact absurd (le_trans hple (hglue p hp vr (List.mem_cons_self vr vs)))
            (not_le.mpr hskip)
        · intro p hp w hw
          obtain rfl : vr.t = p := Option.some_inj.mp hp
          exact chainLe_of_chain hv w hw
      · rw [if_neg hskip]
        have hLt : sL ≤ vr.t := not_lt.mp hskip
        have hadvspec := advanceSat_spec sat_time hsat vr.t (sat_time.length - sk)
          sk sL sR sd (le_refl _) hk1 hklen hL hR hLt
        split
        · next heq =>
          have hlast := hadvspec.1 heq
          have hout : inRangeB sat_time vr.t = false := by
            unfold inRangeB
            rw [decide_eq_false (not_lt.mpr hlast), Bool.and_false]
          have hoor : ∀ w ∈ vs, inRangeB sat_time w.t = false := by
            intro w hw
            unfold inRangeB
            rw [decide_eq_false
              (not_lt.mpr (le_trans hlast (chainLe_of_chain hv w hw))), Bool.and_false]
          rw [hout, Bool.false_and, if_neg Bool.false_ne_true,
            zipWith_step_of_out_of_range sat_time sat_lat sat_long sat_alt MIN vs bs
              (by simpa using hlen) hoor]
        · next k2 L2 R2 d2 heq =>
          obtain ⟨hk2a, hk2len, hL2, hR2, hL2t, htR2, hd2, hk2ge⟩ :=
            hadvspec.2 k2 L2 R2 d2 heq
          subst hL2
          subst hR2
          have hbr : bracketIdx sat_time vr.t = k2 := by
            unfold bracketIdx
            exact countP_bracket sat_time hsat k2 vr.t hk2a hk2len hL2t htR2
          have hin : inRangeB sat_time vr.t = true := by
            unfold inRangeB
            rw [decide_eq_true
                (le_trans (getD_le_of_pairwise hsat (Nat.zero_le _) (by omega)) hL2t),
              decide_eq_true
                (lt_of_lt_of_le htR2 (getD_le_of_pairwise hsat (by omega) (by omega))),
              Bool.and_self]
          rw [hin, Bool.true_and,
            hitPure_eq sat_time sat_lat sat_long sat_alt MIN vr k2 hbr]
          cases d2 with
          | true =>
            simp only [Bool.true_or, reduceIte]
            congr 1
            · refine ih bs _ ?_ ?_ ?_ ?_ ?_ ?_ ?_ ?_ ?_
              · exact (List.chain'_cons'.mp hv).2
              · simpa using hlen
              · exact hk2a
              · exact hk2len
              · rfl
              · rfl
              · exact Or.inr ⟨vr.t, rfl, hL2t⟩
              · intro _
                exact ⟨vr.t, rfl, hL2t, htR2, rfl, rfl, rfl⟩
              · intro p hp w hw
                obtain rfl : vr.t = p := Option.some_inj.mp hp
                exact chainLe_of_chain hv w hw
          | false =>
            have hor := Bool.or_eq_false_iff.mp hd2.symm
            have hsdf : sd = false := hor.1
            have hkeq : k2 = sk := by
              have hnk := of_decide_eq_false hor.2
              omega
            subst hkeq
            obtain ⟨q, hq, hqle, hqlt, hsi1, hsi2, hsi3⟩ := hdirty hsdf
            subst hq
            simp only [Bool.false_or]
            by_cases hqt : q = vr.t
            · subst hqt
              rw [decide_eq_false (not_not_intro rfl)]
              simp only [if_neg Bool.false_ne_true]
              rw [hsi1, hsi2, hsi3, clampAlt_idem]
              congr 1
              · refine ih bs _ ?_ ?_ ?_ ?_ ?_ ?_ ?_ ?_ ?_
                · exact (List.chain'_cons'.mp hv).2
                · simpa using hlen
                · exact hk2a
                · exact hk2len
                · rfl
                · rfl
                · exact Or.inr ⟨vr.t, rfl, hL2t⟩
                · intro _
                  exact ⟨vr.t, rfl, hL2t, htR2, rfl, rfl, rfl⟩
                · intro p hp w hw
                  obtain rfl : vr.t = p := Option.some_inj.mp hp
                  exact chainLe_of_chain hv w hw
            · rw [decide_eq_true hqt]
              simp only [reduceIte]
              congr 1
              · refine ih bs _ ?_ ?_ ?_ ?_ ?_ ?_ ?_ ?_ ?_
                · exact (List.chain'_cons'.mp hv).2
                · simpa using hlen
                · exact hk2a
                · exact hk2len
                · rfl
                · rfl
                · exact Or.inr ⟨vr.t, rfl, hL2t⟩
                · intro _
                  exact ⟨vr.t, rfl, hL2t, htR2, rfl, rfl, rfl⟩
                · intro p hp w hw
                  obtain rfl : vr.t = p := Option.some_inj.mp hp
                  exact chainLe_of_chain hv w hw

/-- `_compute` on a whole chunk equals the cell-wise pure decision: each output
cell is set to `true` when the row is in range and inside the FOV, and is the
input buffer cell otherwise. -/
theorem compute_chunk_spec (sat_time : List ℤ) (sat_lat sat_long : List ℝ)
    (sat_alt : List XF) (MIN : ℝ) (hsat : List.Pairwise (· < ·) sat_time)
    (hm : 2 ≤ sat_time.length) (v : List VRow)
    (hv : List.Chain' (fun a b => a.t ≤ b.t) v)
    (output : List Bool) (hlen : output.length = v.length) :
    _compute sat_time sat_lat sat_long sat_alt MIN v output =
      List.zipWith (fun w c =>
        if (inRangeB sat_time w.t &&
            hitPure sat_time sat_lat sat_long sat_alt MIN w) = true then true else c)
        v output := by
  unfold _compute
  apply computeLoop_eq_spec sat_time sat_lat sat_long sat_alt MIN hsat v output
    (initState sat_time) hv hlen
  · exact le_refl 1
  · show 1 < sat_time.length
    omega
  · rfl
  · rfl
  · exact Or.inl rfl
  · intro h
    simp [initState] at h
  · intro p hp
    simp [initState] at hp

/-- Reading cell `i` of the pure mask built over an all-false buffer gives
exactly the boolean per-row decision. -/
theorem mask_getD (sat_time : List ℤ) (sat_lat sat_long : List ℝ) (sat_alt : List XF)
    (MIN : ℝ) (v : List VRow) (i : ℕ) (hi : i < v.length) :
    (List.zipWith (fun w c =>
        if (inRangeB sat_time w.t &&
            hitPure sat_time sat_lat sat_long sat_alt MIN w) = true then true else c)
      v (List.replicate v.length false)).getD i false =
      (inRangeB sat_time v[i].t &&
        hitPure sat_time sat_lat sat_long sat_alt MIN v[i]) := by
  have hl : (List.zipWith (fun w c =>
      if (inRangeB sat_time w.t &&
          hitPure sat_time sat_lat sat_long sat_alt MIN w) = true then true else c)
      v (List.replicate v.length false)).length = v.length := by
    simp
  rw [List.getD_eq_getElem _ _ (by rw [hl]; exact hi), List.getElem_zipWith,
    List.getElem_replicate]
  by_cases hb : (inRangeB sat_time v[i].t &&
      hitPure sat_time sat_lat sat_long sat_alt MIN v[i]) = true
  · rw [if_pos hb, hb]
  · rw [if_neg hb]
    exact (Bool.eq_false_iff.mpr hb).symm

/-- **C3.** For every valid kernel input (strictly increasing `sat_time` with at
least 2 samples, non-decreasing vessel times), `_compute` on a zeroed buffer
returns a mask of length `n`; a `true` cell implies
`sat_time[0] ≤ v_time[i] < sat_time[m-1]`; and a vessel point whose time equals
the last satellite sample `sat_time[m-1]` reads `false`. -/
theorem C3_kernel_mask_invariants (sat_time : List ℤ) (sat_lat sat_long : List ℝ)
    (sat_alt : List XF) (MIN : ℝ) (v : List VRow)
    (hsat : List.Pairwise (· < ·) sat_time) (hm : 2 ≤ sat_time.length)
    (hv : List.Chain' (fun a b => a.t ≤ b.t) v) :
    ((_compute sat_time sat_lat sat_long sat_alt MIN v
        (List.replicate v.length false)).length = v.length) ∧
    (∀ i (hi : i < v.length),
      (_compute sat_time sat_lat sat_long sat_alt MIN v
          (List.replicate v.length false)).getD i false = true →
      sat_time.getD 0 0 ≤ v[i].t ∧ v[i].t < sat_time.getD (sat_time.length - 1) 0) ∧
    (∀ i (hi : i < v.length),
      v[i].t = sat_time.getD (sat_time.length - 1) 0 →
      (_compute sat_time sat_lat sat_long sat_alt MIN v
          (List.replicate v.length false)).getD i false = false) := by
  refine ⟨?_, ?_, ?_⟩
  · unfold _compute
    rw [computeLoop_length]
    simp
  · intro i hi hhit
    rw [compute_chunk_spec sat_time sat_lat sat_long sat_alt MIN hsat hm v hv _ (by simp),
      mask_getD sat_time sat_lat sat_long sat_alt MIN v i hi] at hhit
    simp only [Bool.and_eq_true] at hhit
    have hr := hhit.1
    unfold inRangeB at hr
    simp only [Bool.and_eq_true, decide_eq_true_eq] at hr
    exact hr
  · intro i hi hlast
    rw [compute_chunk_spec sat_time sat_lat sat_long sat_alt MIN hsat hm v hv _ (by simp),
      mask_getD sat_time sat_lat sat_long sat_alt MIN v i hi]
    have hr : inRangeB sat_time v[i].t = false := by
      unfold inRangeB
      have hlt : ¬ (v[i].t < sat_time.getD (sat_time.length - 1) 0) := by
        rw [hlast]
        exact lt_irrefl _
      rw [decide_eq_false hlt, Bool.and_false]
    rw [hr, Bool.false_and]

/-- Closed instance of C3: two satellite samples at times 0 and 100, one vessel
row exactly at the last sample (time 100): the mask has length 1 and that row
reads `false`. -/
theorem C3_kernel_mask_invariants_witness :
    List.Pairwise (· < ·) ([0, 100] : List ℤ) ∧
    2 ≤ ([0, 100] : List ℤ).length ∧
    List.Chain' (fun a b => a.t ≤ b.t) [(⟨100, 0, 0⟩ : VRow)] ∧
    (((_compute [0, 100] [0, 0] [0, 0] [XF.fin 0, XF.fin 0] 0
        [(⟨100, 0, 0⟩ : VRow)]
        (List.replicate ([(⟨100, 0, 0⟩ : VRow)] : List VRow).length false)).length =
        ([(⟨100, 0, 0⟩ : VRow)] : List VRow).length) ∧
     (∀ i (hi : i < ([(⟨100, 0, 0⟩ : VRow)] : List VRow).length),
       (_compute [0, 100] [0, 0] [0, 0] [XF.fin 0, XF.fin 0] 0
           [(⟨100, 0, 0⟩ : VRow)]
           (List.replicate ([(⟨100, 0, 0⟩ : VRow)] : List VRow).length false)).getD i
           false = true →
       ([0, 100] : List ℤ).getD 0 0 ≤ ([(⟨100, 0, 0⟩ : VRow)] : List VRow)[i].t ∧
         ([(⟨100, 0, 0⟩ : VRow)] : List VRow)[i].t <
           ([0, 100] : List ℤ).getD (([0, 100] : List ℤ).length - 1) 0) ∧
     (∀ i (hi : i < ([(⟨100, 0, 0⟩ : VRow)] : List VRow).length),
       ([(⟨100, 0, 0⟩ : VRow)] : List VRow)[i].t =
         ([0, 100] : List ℤ).getD (([0, 100] : List ℤ).length - 1) 0 →
       (_compute [0, 100] [0, 0] [0, 0] [XF.fin 0, XF.fin 0] 0
           [(⟨100, 0, 0⟩ : VRow)]
           (List.replicate ([(⟨100, 0, 0⟩ : VRow)] : List VRow).length false)).getD i
           false = false)) :=
  ⟨by decide, by decide, by simp,
    C3_kernel_mask_invariants [0, 100] [0, 0] [0, 0] [XF.fin 0, XF.fin 0] 0
      [(⟨100, 0, 0⟩ : VRow)] (by decide) (by decide) (by simp)⟩

theorem XF_le_nan (x : XF) : XF.le x XF.nan = false := by
  cases x <;> rfl

theorem clampAlt_pinf : clampAlt XF.pinf = XF.pinf := rfl

theorem clampAlt_nan : clampAlt XF.nan = XF.nan := rfl

theorem fov_pinf (MIN : ℝ) : sat_fov_max_angle MIN XF.pinf = XF.fin (π / 2) := rfl

/-- A NaN (already clamped) altitude yields a NaN FOV angle in both of the
kernel's branches. -/
theorem fov_nan (MIN : ℝ) : sat_fov_max_angle MIN XF.nan = XF.nan := by
  unfold sat_fov_max_angle
  by_cases hM : MIN < 1000000.0
  · rw [if_neg (by simp [XF.isinf]), if_pos hM]
    rfl
  · rw [if_neg (by simp [XF.isinf]), if_neg hM]
    rfl

/-- Interpolating the all-`np.inf` altitude column of half-earth mode inside a
valid bracket: `+inf` when the vessel time is strictly inside the bracket, and
NaN when it sits exactly on the left sample (`alpha = 0` and `0 * inf = NaN`). -/
theorem interpXF_replicate_pinf (sat_time : List ℤ) (hsat : List.Pairwise (· < ·) sat_time)
    (k : ℕ) (t : ℤ) (hk1 : 1 ≤ k) (hklen : k < sat_time.length)
    (hL : sat_time.getD (k - 1) 0 ≤ t) (hR : t < sat_time.getD k 0) :
    interpXF sat_time (List.replicate sat_time.length XF.pinf) k t =
      (if sat_time.getD (k - 1) 0 < t then XF.pinf else XF.nan) := by
  have hLR : sat_time.getD (k - 1) 0 < sat_time.getD k 0 :=
    getD_lt_of_pairwise hsat (by omega) hklen
  have hrep1 : (List.replicate sat_time.length XF.pinf).getD (k - 1) (XF.fin 0) = XF.pinf := by
    rw [List.getD_eq_getElem _ _ (by simpa using by omega : k - 1 <
      (List.replicate sat_time.length XF.pinf).length), List.getElem_replicate]
  have hrep2 : (List.replicate sat_time.length XF.pinf).getD k (XF.fin 0) = XF.pinf := by
    rw [List.getD_eq_getElem _ _ (by simpa using hklen), List.getElem_replicate]
  have hdpos : (0 : ℝ) < ((sat_time.getD k 0 - sat_time.getD (k - 1) 0 : ℤ) : ℝ) := by
    exact_mod_cast (by omega : (0 : ℤ) < sat_time.getD k 0 - sat_time.getD (k - 1) 0)
  have hbeta : (0 : ℝ) < ((sat_time.getD k 0 - t : ℤ) : ℝ) /
      ((sat_time.getD k 0 - sat_time.getD (k - 1) 0 : ℤ) : ℝ) :=
    div_pos (by exact_mod_cast (by omega : (0 : ℤ) < sat_time.getD k 0 - t)) hdpos
  unfold interpXF
  dsimp only
  rw [hrep1, hrep2]
  simp only [XF.smul]
  rw [if_pos hbeta]
  by_cases hts : sat_time.getD (k - 1) 0 < t
  · have halpha : (0 : ℝ) < ((t - sat_time.getD (k - 1) 0 : ℤ) : ℝ) /
        ((sat_time.getD k 0 - sat_time.getD (k - 1) 0 : ℤ) : ℝ) :=
      div_pos (by exact_mod_cast (by omega : (0 : ℤ) < t - sat_time.getD (k - 1) 0)) hdpos
    rw [if_pos halpha, if_pos hts]
    rfl
  · have hteq : t = sat_time.getD (k - 1) 0 := le_antisymm (not_lt.mp hts) hL
    have halpha0 : ((t - sat_time.getD (k - 1) 0 : ℤ) : ℝ) /
        ((sat_time.getD k 0 - sat_time.getD (k - 1) 0 : ℤ) : ℝ) = 0 := by
      rw [hteq]
      simp
    rw [halpha0, if_neg (lt_irrefl 0), if_neg (lt_irrefl 0), if_neg hts]
    rfl

/-- Characterization of the kernel's per-row hit decision in half-earth mode
(altitude column all `np.inf`): an in-range vessel row hits exactly when its
time is strictly inside its bracket (a row exactly on a satellite sample gets a
NaN altitude from `0 * inf`), the (buggy, degree-latitude) haversine quantity
`a` lies in `[0, 1]` (otherwise the angle is NaN), and the central angle to the
interpolated satellite point is at most `π/2`. -/
theorem hitPure_half_earth (sat_time : List ℤ) (sat_lat sat_long : List ℝ) (MIN : ℝ)
    (hsat : List.Pairwise (· < ·) sat_time) (hm : 2 ≤ sat_time.length) (w : VRow)
    (hin : inRangeB sat_time w.t = true) :
    (hitPure sat_time sat_lat sat_long (List.replicate sat_time.length XF.pinf) MIN w
        = true) ↔
      (sat_time.getD (bracketIdx sat_time w.t - 1) 0 < w.t ∧
       0 ≤ haversine_a (interpR sat_time sat_long (bracketIdx sat_time w.t) w.t)
          (interpR sat_time sat_lat (bracketIdx sat_time w.t) w.t) w.lon w.lat ∧
       haversine_a (interpR sat_time sat_long (bracketIdx sat_time w.t) w.t)
          (interpR sat_time sat_lat (bracketIdx sat_time w.t) w.t) w.lon w.lat ≤ 1 ∧
       haversine_angle (interpR sat_time sat_long (bracketIdx sat_time w.t) w.t)
          (interpR sat_time sat_lat (bracketIdx sat_time w.t) w.t) w.lon w.lat ≤ π / 2) := by
  unfold inRangeB at hin
  simp only [Bool.and_eq_true, decide_eq_true_eq] at hin
  obtain ⟨k, hk1, hklen, hkL, hkR⟩ := exists_bracket sat_time hsat hm w.t hin.1 hin.2
  have hbk : bracketIdx sat_time w.t = k := by
    unfold bracketIdx
    exact countP_bracket sat_time hsat k w.t hk1 hklen hkL hkR
  rw [hitPure_eq sat_time sat_lat sat_long (List.replicate sat_time.length XF.pinf) MIN w
    k hbk, hbk]
  rw [interpXF_replicate_pinf sat_time hsat k w.t hk1 hklen hkL hkR]
  by_cases hts : sat_time.getD (k - 1) 0 < w.t
  · rw [if_pos hts, clampAlt_pinf, fov_pinf]
    unfold haversineXF
    dsimp only
    by_cases ha : 0 ≤ haversine_a (interpR sat_time sat_long k w.t)
        (interpR sat_time sat_lat k w.t) w.lon w.lat ∧
        haversine_a (interpR sat_time sat_long k w.t)
          (interpR sat_time sat_lat k w.t) w.lon w.lat ≤ 1
    · rw [if_pos ha]
      simp only [XF.le, decide_eq_true_eq]
      constructor
      · intro h
        exact ⟨hts, ha.1, ha.2, h⟩
      · rintro ⟨-, -, -, hang⟩
        exact hang
    · rw [if_neg ha]
      simp only [XF.le]
      constructor
      · intro h
        exact absurd h (by simp)
      · rintro ⟨-, h1, h2, -⟩
        exact absurd ⟨h1, h2⟩ ha
  · rw [if_neg hts, clampAlt_nan, fov_nan, XF_le_nan]
    constructor
    · intro h
      exact absurd h (by simp)
    · rintro ⟨h1, -⟩
      exact absurd h1 hts

/-- **C4** (corrected). In half-earth mode (altitude column all `np.inf`), an
output cell of the kernel over a zeroed buffer is `true` iff the row is in
range **and** its time is strictly inside its satellite bracket (a row exactly
on a satellite sample gets `alpha = 0`, a `0 * inf = NaN` altitude and a NaN
FOV, hence `false`) **and** the haversine quantity `a` lies in `[0, 1]` **and**
the central angle to the interpolated satellite point is at most `π/2` (the
vessel is on the satellite's half of the earth).  The claim's plain
equivalence `hit ↔ in-range` is false. -/
theorem C4_half_earth_mask (sat_time : List ℤ) (sat_lat sat_long : List ℝ) (MIN : ℝ)
    (v : List VRow) (hsat : List.Pairwise (· < ·) sat_time) (hm : 2 ≤ sat_time.length)
    (hv : List.Chain' (fun a b => a.t ≤ b.t) v) (i : ℕ) (hi : i < v.length) :
    ((_compute sat_time sat_lat sat_long (List.replicate sat_time.length XF.pinf) MIN v
        (List.replicate v.length false)).getD i false = true) ↔
      (inRangeB sat_time v[i].t = true ∧
       sat_time.getD (bracketIdx sat_time v[i].t - 1) 0 < v[i].t ∧
       0 ≤ haversine_a (interpR sat_time sat_long (bracketIdx sat_time v[i].t) v[i].t)
          (interpR sat_time sat_lat (bracketIdx sat_time v[i].t) v[i].t) v[i].lon v[i].lat ∧
       haversine_a (interpR sat_time sat_long (bracketIdx sat_time v[i].t) v[i].t)
          (interpR sat_time sat_lat (bracketIdx sat_time v[i].t) v[i].t) v[i].lon v[i].lat
         ≤ 1 ∧
       haversine_angle (interpR sat_time sat_long (bracketIdx sat_time v[i].t) v[i].t)
          (interpR sat_time sat_lat (bracketIdx sat_time v[i].t) v[i].t) v[i].lon v[i].lat
         ≤ π / 2) := by
  rw [compute_chunk_spec sat_time sat_lat sat_long (List.replicate sat_time.length XF.pinf)
      MIN hsat hm v hv _ (by simp),
    mask_getD sat_time sat_lat sat_long (List.replicate sat_time.length XF.pinf) MIN v i hi]
  by_cases hin : inRangeB sat_time v[i].t = true
  · rw [hin, Bool.true_and,
      hitPure_half_earth sat_time sat_lat sat_long MIN hsat hm (v[i]) hin]
    constructor
    · intro h
      exact ⟨rfl, h.1, h.2.1, h.2.2.1, h.2.2.2⟩
    · rintro ⟨-, h1, h2, h3, h4⟩
      exact ⟨h1, h2, h3, h4⟩
  · have hinf : inRangeB sat_time v[i].t = false := Bool.eq_false_iff.mpr hin
    rw [hinf, Bool.false_and]
    constructor
    · intro h
      exact absurd h (by simp)
    · rintro ⟨h0, -⟩
      exact absurd h0 (by simp)

/-- Closed instance of the corrected C4: satellite samples at times 0 and 100
over (lat, lon) = (0, 0), one vessel row at time 50 directly below the track
(angle 0), half-earth altitudes; the characterization applies. -/
theorem C4_half_earth_mask_witness :
    List.Pairwise (· < ·) ([0, 100] : List ℤ) ∧
    2 ≤ ([0, 100] : List ℤ).length ∧
    List.Chain' (fun a b => a.t ≤ b.t) [(⟨50, 0, 0⟩ : VRow)] ∧
    0 < ([(⟨50, 0, 0⟩ : VRow)] : List VRow).length ∧
    (((_compute [0, 100] [0, 0] [0, 0] (List.replicate 2 XF.pinf) 0
        [(⟨50, 0, 0⟩ : VRow)] [false]).getD 0 false = true) ↔
      (inRangeB [0, 100] 50 = true ∧
       ([0, 100] : List ℤ).getD (bracketIdx [0, 100] 50 - 1) 0 < 50 ∧
       0 ≤ haversine_a (interpR [0, 100] [0, 0] (bracketIdx [0, 100] 50) 50)
          (interpR [0, 100] [0, 0] (bracketIdx [0, 100] 50) 50) 0 0 ∧
       haversine_a (interpR [0, 100] [0, 0] (bracketIdx [0, 100] 50) 50)
          (interpR [0, 100] [0, 0] (bracketIdx [0, 100] 50) 50) 0 0 ≤ 1 ∧
       haversine_angle (interpR [0, 100] [0, 0] (bracketIdx [0, 100] 50) 50)
          (interpR [0, 100] [0, 0] (bracketIdx [0, 100] 50) 50) 0 0 ≤ π / 2)) :=
  ⟨by decide, by decide, by simp, by norm_num,
    C4_half_earth_mask [0, 100] [0, 0] [0, 0] 0 [(⟨50, 0, 0⟩ : VRow)]
      (by decide) (by decide) (by simp) 0 (by norm_num)⟩

/-- Counterexample to C4 as stated: in half-earth mode an in-range vessel row
on the far side of the earth (central angle `π > π/2`) reads `false`.
Satellite samples at times 0 and 100 over (lat, lon) = (0, 0); vessel at time
50, latitude 0, longitude 180. -/
theorem C4_counterexample :
    inRangeB [0, 100] (50 : ℤ) = true ∧
    _compute [0, 100] [0, 0] [0, 0] (List.replicate 2 XF.pinf) 0
      [(⟨50, 0, 180⟩ : VRow)] [false] = [false] := by
  refine ⟨by decide, ?_⟩
  rw [compute_chunk_spec [0, 100] [0, 0] [0, 0] (List.replicate 2 XF.pinf) 0
    (by decide) (by decide) [(⟨50, 0, 180⟩ : VRow)] (by simp) [false] (by simp)]
  have hbk : bracketIdx [0, 100] (50 : ℤ) = 1 := by decide
  have hint : interpR [0, 100] [0, 0] 1 50 = 0 := by
    unfold interpR
    norm_num [List.getD_cons_zero, List.getD_cons_succ]
  have ha1 : haversine_a 0 0 180 0 = 1 := by
    unfold haversine_a
    norm_num [Real.sin_pi_div_two, Real.sin_zero, Real.cos_zero]
  have hπ : haversine_angle 0 0 180 0 = π := by
    unfold haversine_angle
    rw [ha1]
    norm_num [atan2, Real.sqrt_one]
    ring
  have hnot : ¬ (hitPure [0, 100] [0, 0] [0, 0]
      (List.replicate ([0, 100] : List ℤ).length XF.pinf) 0 ⟨50, 0, 180⟩ = true) := by
    rw [hitPure_half_earth [0, 100] [0, 0] [0, 0] 0 (by decide) (by decide)
      ⟨50, 0, 180⟩ (by decide)]
    rintro ⟨-, -, -, hang⟩
    rw [hbk, hint] at hang
    dsimp only at hang
    rw [hπ] at hang
    have hpos := Real.pi_pos
    linarith
  have hhp : hitPure [0, 100] [0, 0] [0, 0] (List.replicate 2 XF.pinf) 0
      (⟨50, 0, 180⟩ : VRow) = false := Bool.eq_false_iff.mpr hnot
  rw [List.zipWith_cons_cons]
  dsimp only
  rw [hhp, Bool.and_false, if_neg Bool.false_ne_true]
  rfl

theorem compute_length (sat_time : List ℤ) (sat_lat sat_long : List ℝ)
    (sat_alt : List XF) (MIN : ℝ) (v : List VRow) (output : List Bool) :
    (_compute sat_time sat_lat sat_long sat_alt MIN v output).length = output.length :=
  computeLoop_length sat_time sat_lat sat_long sat_alt MIN v output (initState sat_time)

/-- Appending two frame-respecting buffers of matching lengths is
frame-respecting. -/
theorem frame_getD_append (l1 l2 o1 o2 : List Bool) (hlen : l1.length = o1.length)
    (h1 : ∀ i, l1.getD i false = o1.getD i false ∨ l1.getD i false = true)
    (h2 : ∀ i, l2.getD i false = o2.getD i false ∨ l2.getD i false = true) :
    ∀ i, (l1 ++ l2).getD i false = (o1 ++ o2).getD i false ∨
      (l1 ++ l2).getD i false = true := by
  intro i
  by_cases hi : i < l1.length
  · rw [List.getD_append _ _ _ _ hi, List.getD_append _ _ _ _ (hlen ▸ hi)]
    exact h1 i
  · rw [List.getD_append_right _ _ _ _ (not_lt.mp hi),
      List.getD_append_right _ _ _ _ (by omega), hlen]
    exact h2 _

/-- Length of the concatenation of the first `n` kernel chunks. -/
theorem chunks_flatten_length (sat_time : List ℤ) (sat_lat sat_long : List ℝ)
    (sat_alt : List XF) (MIN : ℝ) (c : ℕ) (v : List VRow) (mask : List Bool)
    (hlen : mask.length = v.length) :
    ∀ n : ℕ,
      (((List.range n).map fun w =>
        _compute sat_time sat_lat sat_long sat_alt MIN ((v.drop (w * c)).take c)
          ((mask.drop (w * c)).take c)).flatten).length = min (n * c) mask.length := by
  intro n
  induction n with
  | zero => simp
  | succ m ihm =>
    rw [List.range_succ, List.map_append, List.flatten_append, List.length_append, ihm]
    simp only [List.map_cons, List.map_nil, List.flatten_cons, List.flatten_nil,
      List.append_nil, compute_length]
    simp only [List.length_take, List.length_drop]
    rw [Nat.succ_mul]
    omega

/-- The concatenation of the first `n` kernel chunks obeys the frame property
against the first `n * c` cells of the mask. -/
theorem chunks_frame (sat_time : List ℤ) (sat_lat sat_long : List ℝ)
    (sat_alt : List XF) (MIN : ℝ) (c : ℕ) (v : List VRow) (mask : List Bool)
    (hlen : mask.length = v.length) :
    ∀ (n : ℕ) (i : ℕ),
      (((List.range n).map fun w =>
        _compute sat_time sat_lat sat_long sat_alt MIN ((v.drop (w * c)).take c)
          ((mask.drop (w * c)).take c)).flatten).getD i false =
        (mask.take (n * c)).getD i false ∨
      (((List.range n).map fun w =>
        _compute sat_time sat_lat sat_long sat_alt MIN ((v.drop (w * c)).take c)
          ((mask.drop (w * c)).take c)).flatten).getD i false = true := by
  intro n
  induction n with
  | zero =>
    intro i
    simp
  | succ m ihm =>
    rw [List.range_succ, List.map_append, List.flatten_append]
    have htake : mask.take ((m + 1) * c) =
        mask.take (m * c) ++ (mask.drop (m * c)).take c := by
      rw [Nat.succ_mul, List.take_add]
    rw [htake]
    simp only [List.map_cons, List.map_nil, List.flatten_cons, List.flatten_nil,
      List.append_nil]
    apply frame_getD_append
    · rw [chunks_flatten_length sat_time sat_lat sat_long sat_alt MIN c v mask hlen m,
        List.length_take]
    · exact ihm
    · intro j
      unfold _compute
      exact computeLoop_frame sat_time sat_lat sat_long sat_alt MIN _ _ _ j

/-- **C10.** The kernel only writes `true`: every cell of a `computeLoop` run
is either the corresponding input buffer cell or `true`; the chunked dispatch
of `compute_hits` preserves that frame property over the whole mask; and
`compute_hits` allocates the mask all-false (`np.zeros`) before dispatching,
so cells not written by any chunk read `false`. -/
theorem C10_mask_frame (sat_time : List ℤ) (sat_lat sat_long : List ℝ)
    (sat_alt : List XF) (MIN : ℝ) :
    (∀ (v : List VRow) (output : List Bool) (st : KState) (i : ℕ),
      (computeLoop sat_time sat_lat sat_long sat_alt MIN v output st).getD i false =
          output.getD i false ∨
        (computeLoop sat_time sat_lat sat_long sat_alt MIN v output st).getD i false =
          true) ∧
    (∀ (v : List VRow) (workers : ℕ) (hit_mask : List Bool),
      hit_mask.length = v.length → ∀ i : ℕ,
      (dispatchMask sat_time sat_lat sat_long sat_alt MIN v workers hit_mask).getD i
          false = hit_mask.getD i false ∨
        (dispatchMask sat_time sat_lat sat_long sat_alt MIN v workers hit_mask).getD i
          false = true) ∧
    (∀ (v : List VRow) (workers : ℕ),
      compute_hits_mask sat_time sat_lat sat_long sat_alt MIN v workers =
        dispatchMask sat_time sat_lat sat_long sat_alt MIN v workers
          (List.replicate v.length false)) := by
  refine ⟨computeLoop_frame sat_time sat_lat sat_long sat_alt MIN, ?_,
    fun v workers => rfl⟩
  intro v workers hit_mask hlen i
  unfold dispatchMask
  by_cases hw : 1 < workers
  · rw [if_pos hw]
    dsimp only
    have hfr1 := chunks_frame sat_time sat_lat sat_long sat_alt MIN
      (v.length / workers) v hit_mask hlen workers
    have htail : ∀ j : ℕ,
        (if v.length / workers * workers < v.length then
            _compute sat_time sat_lat sat_long sat_alt MIN
              (v.drop (v.length / workers * workers))
              (hit_mask.drop (v.length / workers * workers))
          else []).getD j false =
          (hit_mask.drop (workers * (v.length / workers))).getD j false ∨
        (if v.length / workers * workers < v.length then
            _compute sat_time sat_lat sat_long sat_alt MIN
              (v.drop (v.length / workers * workers))
              (hit_mask.drop (v.length / workers * workers))
          else []).getD j false = true := by
      intro j
      by_cases ht : v.length / workers * workers < v.length
      · rw [if_pos ht, Nat.mul_comm workers (v.length / workers)]
        unfold _compute
        exact computeLoop_frame sat_time sat_lat sat_long sat_alt MIN _ _ _ j
      · rw [if_neg ht]
        have hdrop : hit_mask.drop (workers * (v.length / workers)) = [] := by
          rw [List.drop_eq_nil_iff, Nat.mul_comm workers (v.length / workers)]
          omega
        rw [hdrop]
        exact Or.inl rfl
    have h := frame_getD_append _ _ (hit_mask.take (workers * (v.length / workers)))
      (hit_mask.drop (workers * (v.length / workers)))
      (by rw [chunks_flatten_length sat_time sat_lat sat_long sat_alt MIN
          (v.length / workers) v hit_mask hlen workers, List.length_take])
      hfr1 htail i
    rw [List.take_append_drop] at h
    exact h
  · rw [if_neg hw]
    unfold _compute
    exact computeLoop_frame sat_time sat_lat sat_long sat_alt MIN _ _ _ i

/-- Closed instance of C10's dispatch frame property: one vessel row, four
workers, a buffer holding `[false]`; the dispatched mask cell is the buffer
cell or `true`. -/
theorem C10_mask_frame_witness :
    (([false] : List Bool).length = ([(⟨0, 0, 0⟩ : VRow)] : List VRow).length) ∧
    ((dispatchMask [0, 100] [0, 0] [0, 0] [XF.fin 0, XF.fin 0] 0
        [(⟨0, 0, 0⟩ : VRow)] 4 [false]).getD 0 false =
          ([false] : List Bool).getD 0 false ∨
      (dispatchMask [0, 100] [0, 0] [0, 0] [XF.fin 0, XF.fin 0] 0
        [(⟨0, 0, 0⟩ : VRow)] 4 [false]).getD 0 false = true) :=
  ⟨rfl, (C10_mask_frame [0, 100] [0, 0] [0, 0] [XF.fin 0, XF.fin 0] 0).2.1
    [(⟨0, 0, 0⟩ : VRow)] 4 [false] rfl 0⟩

end Vault
